import Mathlib

/-!
Verification of the graph-py library (node/edge data model, graph variants,
search-strategy registry, regex node search, BFS/DFS/Dijkstra/Bellman-Ford,
and graph set operations) against its natural-language specification.

The Python source is shallowly embedded: pydantic models become structures,
methods become functions, raised exceptions become an `Err` sum surfaced
through `Except`, Python `None` becomes `Option`, and the float values the
program computes become `Int`: the `Edge` model stores no weight, so every
resolved weight is the default `1.0`, and with it every distance, cost and
score the program can construct is a whole number, modelled exactly by
integers.  Object identity, which Python uses as a shortcut in `in`
checks and which pydantic back-references rely on, is modelled by a `ref`
tag on nodes and graphs standing for the object address.
-/

namespace GraphPy

/-- Python runtime values that can appear as a node property or field value.
Only the shapes exercised by the library are modelled: `None`, strings and
integers (other values would be rendered through `repr`, which no claim
exercises). -/
inductive PyValue where
  | pyNone : PyValue
  | pyStr : String → PyValue
  | pyInt : Int → PyValue
deriving DecidableEq, Repr

/-- Exceptions the embedded code can raise.  `assertionError` models a failed
`assert`, `keyError` a missing dict key, `valueError` a `ValueError` with its
message, `unknownStrategyError` the `UnknownStrategyError(LookupError)` class
carrying its message, `searchError` the `SearchError(RuntimeError)` class,
`notImplementedError` a `NotImplementedError`, and `outOfFuel` is the
sentinel the embedding returns when its fuel bound is exhausted (the Python
loops have no such bound; all theorems below either avoid the loops or prove
the fuel suffices). -/
inductive Err where
  | assertionError : Err
  | keyError : Err
  | valueError : String → Err
  | unknownStrategyError : String → Err
  | searchError : String → Err
  | notImplementedError : String → Err
  | outOfFuel : Err
deriving DecidableEq, Repr

/-- Embeds `class Edge(BaseModel)` from core.py: fields `id`, optional
`name`, `source`, `target`.  The class declares no `weight` field, and
pydantic models ignore unknown constructor keywords, so an Edge carries no
weight at runtime. -/
structure Edge where
  id : String
  name : Option String := none
  source : String
  target : String
deriving DecidableEq, Repr

/-- Embeds `class Node(BaseModel)` and its subclass `PropertyNode`.
`ref` models the object address (two nodes are the same Python object iff
their refs agree); `graphRef` models the `graph` back-reference by the
address of the owning graph; `props = none` models a plain `Node` while
`props = some ps` models a `PropertyNode` with properties `ps` (an
insertion-ordered dict). -/
structure Node where
  ref : Nat
  id : String
  name : Option String := none
  graphRef : Option Nat := none
  props : Option (List (String × PyValue)) := none
deriving DecidableEq, Repr

/-- The three graph classes: `Graph`, `DirectedGraph`, `UndirectedGraph`. -/
inductive GraphKind where
  | base : GraphKind
  | directed : GraphKind
  | undirected : GraphKind
deriving DecidableEq, Repr

/-- Which concrete `NodeSearchStrategy` subclass a strategy object is:
`RegexNodeSearch` (with its `target_fields` default), or the placeholder
`TFIDFNodeSearch` / `BM25NodeSearch` classes. -/
inductive StrategyImpl where
  | regexImpl : Option (List String) → StrategyImpl
  | tfidfImpl : StrategyImpl
  | bm25Impl : StrategyImpl
deriving DecidableEq, Repr

/-- Embeds `NodeSearchStrategy`: the `name` attribute plus the concrete
subclass carrying its own state. -/
structure NodeSearchStrategy where
  name : String
  impl : StrategyImpl
deriving DecidableEq, Repr

/-- The `RegexNodeSearch()` object built by `Graph.__init__`:
`super().__init__(name=name or "regex")` with no target fields. -/
def regexDefaultStrategy : NodeSearchStrategy :=
  { name := "regex", impl := StrategyImpl.regexImpl none }

/-- Embeds `class Graph(BaseModel)`: `id`, optional `name`, node and edge
lists, the private strategy registry `_search_strategies` (an
insertion-ordered dict modelled as an association list) and
`_default_strategy_key`.  `ref` is the object address, `kind` the concrete
class. -/
structure Graph where
  ref : Nat
  kind : GraphKind
  id : String
  name : Option String := none
  nodes : List Node := []
  edges : List Edge := []
  searchStrategies : List (String × NodeSearchStrategy) := []
  defaultStrategyKey : Option String := none
deriving DecidableEq, Repr

/-- Pydantic equality on nodes (`__eq__` compares the classes and every
field).  The `graph` back-reference field is compared by object address:
CPython short-circuits `==` on identical objects, and comparing two distinct
graph objects through their mutually recursive node lists cannot yield
`True` for the states considered here.  `props` also separates the `Node`
and `PropertyNode` classes, which pydantic treats as unequal. -/
def pyNodeEq (a b : Node) : Bool :=
  a.id == b.id && a.name == b.name && a.graphRef == b.graphRef && a.props == b.props

/-- Python `x in lst` on a node list: CPython first tests object identity
(`is`), then `==` (pydantic field equality). -/
def pyIn (n : Node) (l : List Node) : Bool :=
  l.any (fun m => n.ref == m.ref || pyNodeEq n m)

/-- The common precondition `assert src_node in graph.nodes and trg_node in
graph.nodes` shared by bfs, dfs, dijkstra and bellman_ford. -/
def memberCheck (g : Graph) (src trg : Node) : Bool :=
  pyIn src g.nodes && pyIn trg g.nodes

/-- Membership by object identity (the node is literally one of the list
objects).  Not used by the code; stated to compare against `pyIn`. -/
def identityMember (n : Node) (l : List Node) : Bool :=
  l.any (fun m => n.ref == m.ref)

/-- Embeds `Graph.add_node`: link the node to this graph and append it. -/
def add_node (g : Graph) (n : Node) : Graph :=
  { g with nodes := g.nodes ++ [{ n with graphRef := some g.ref }] }

/-- Does an existing edge already connect the same unordered pair, in either
orientation?  This is the condition `UndirectedGraph.add_edge` tests. -/
def connectsPair (e : Edge) (a b : String) : Bool :=
  (e.source == a && e.target == b) || (e.source == b && e.target == a)

/-- Embeds `add_edge` with dynamic dispatch on the graph class: the base
`Graph.add_edge` appends unconditionally (and `DirectedGraph` inherits it);
`UndirectedGraph.add_edge` appends only when no stored edge already connects
the same unordered pair. -/
def add_edge (g : Graph) (e : Edge) : Graph :=
  match g.kind with
  | GraphKind.undirected =>
      if g.edges.any (fun e0 => connectsPair e0 e.source e.target) then g
      else { g with edges := g.edges ++ [e] }
  | _ => { g with edges := g.edges ++ [e] }

/-- Embeds `Graph.get_node`: first node with the given id, else `None`. -/
def get_node (g : Graph) (nodeId : String) : Option Node :=
  g.nodes.find? (fun n => n.id == nodeId)

/-- Embeds `Graph.get_edge`: first edge with the given id, else `None`. -/
def get_edge (g : Graph) (edgeId : String) : Option Edge :=
  g.edges.find? (fun e => e.id == edgeId)

end GraphPy

namespace GraphPy

/-- Python `a or b` on an optional string where the empty string is falsy:
used for `alias or strategy.name`. -/
def pyOrStr (a : Option String) (b : String) : String :=
  match a with
  | some s => if s == "" then b else s
  | none => b

/-- Python dict assignment `d[k] = v` on an insertion-ordered association
list: replace the first binding of `k` in place, else append. -/
def dictInsert (d : List (String × NodeSearchStrategy)) (k : String)
    (v : NodeSearchStrategy) : List (String × NodeSearchStrategy) :=
  match d with
  | [] => [(k, v)]
  | (k0, v0) :: rest =>
      if k0 == k then (k0, v) :: rest else (k0, v0) :: dictInsert rest k v

/-- Embeds `Graph.register_search_strategy(strategy, alias?, default?)`:
store under `alias or strategy.name`; the key becomes the default when
requested or when no default exists yet (`is None`, so an empty-string
default key still counts as set). -/
def register_search_strategy (g : Graph) (strategy : NodeSearchStrategy)
    (aliasArg : Option String := none) (default : Bool := false) : Graph :=
  let key := pyOrStr aliasArg strategy.name
  let g' := { g with searchStrategies := dictInsert g.searchStrategies key strategy }
  if default || g.defaultStrategyKey == none then
    { g' with defaultStrategyKey := some key }
  else g'

/-- Embeds `Graph.list_search_strategies`. -/
def list_search_strategies (g : Graph) : List String :=
  g.searchStrategies.map Prod.fst

/-- Embeds `Graph.__init__` (shared by `DirectedGraph` and
`UndirectedGraph`, which do not override it): pydantic initialisation of the
declared fields followed by `register_search_strategy(RegexNodeSearch(),
default=True)` on the initially empty private registry. -/
def mkGraph (ref : Nat) (kind : GraphKind) (id : String)
    (name : Option String := none) (nodes : List Node := [])
    (edges : List Edge := []) : Graph :=
  register_search_strategy
    { ref := ref, kind := kind, id := id, name := name, nodes := nodes,
      edges := edges, searchStrategies := [], defaultStrategyKey := none }
    regexDefaultStrategy none true

/-- The message of the `UnknownStrategyError` raised for an unregistered
key (the embedding drops the quote characters around the key). -/
def unknownKeyMsg (key : String) : String :=
  "Search strategy " ++ key ++ " is not registered."

/-- The message of the `UnknownStrategyError` raised when no strategy at all
is registered. -/
def noStrategiesMsg : String :=
  "No search strategies have been registered for this graph."

/-- The `strategy` argument of `Graph.search_nodes`:
`Union[None, str, NodeSearchStrategy]`. -/
inductive StrategyArg where
  | noArg : StrategyArg
  | key : String → StrategyArg
  | inst : NodeSearchStrategy → StrategyArg

/-- The tail of `_resolve_search_strategy` once the default key is unusable:
`next(iter(self._search_strategies.values()))` when the registry is
nonempty, else the no-strategies `UnknownStrategyError`. -/
def resolveFallback (g : Graph) : Except Err NodeSearchStrategy :=
  match g.searchStrategies with
  | kv :: _ => Except.ok kv.2
  | [] => Except.error (Err.unknownStrategyError noStrategiesMsg)

/-- Embeds `Graph._resolve_search_strategy`: explicit instance, then
explicit key (raising `UnknownStrategyError` when unregistered), then the
default key (skipped when it is `None`, empty — Python truthiness — or no
longer registered), then the first registered strategy, else
`UnknownStrategyError`. -/
def resolve_search_strategy (g : Graph) (strategy : StrategyArg) :
    Except Err NodeSearchStrategy :=
  match strategy with
  | StrategyArg.inst s => Except.ok s
  | StrategyArg.key k =>
      match g.searchStrategies.find? (fun kv => kv.1 == k) with
      | some kv => Except.ok kv.2
      | none => Except.error (Err.unknownStrategyError (unknownKeyMsg k))
  | StrategyArg.noArg =>
      match g.defaultStrategyKey with
      | some dk =>
          if dk != "" then
            match g.searchStrategies.find? (fun kv => kv.1 == dk) with
            | some kv => Except.ok kv.2
            | none => resolveFallback g
          else resolveFallback g
      | none => resolveFallback g

end GraphPy

namespace GraphPy

/-- Embeds `NodeSearchQuery`: pattern, optional field restriction, optional
result limit, case-sensitivity flag (strategy parameters are not modelled;
nothing reads them). -/
structure NodeSearchQuery where
  pattern : String
  fields : Option (List String) := none
  limit : Option Nat := none
  case_sensitive : Bool := false
deriving DecidableEq, Repr

/-- Embeds `NodeSearchResult`: matched node id, optional score (a float in
the source, exactly representable here), the field-to-matched-text
highlights dict, and the resolved node reference (by object address). -/
structure NodeSearchResult where
  node_id : String
  score : Option Int := none
  highlights : List (String × String) := []
  nodeRef : Option Nat := none
deriving DecidableEq, Repr

/-- ASCII lowering, the effect of `re.IGNORECASE` on the literal patterns
considered here. -/
def asciiLower (s : String) : String :=
  String.mk (s.data.map Char.toLower)

/-- Substring test on character lists: `p` occurs inside `t`. -/
def containsSub (t p : List Char) : Bool :=
  if p.isPrefixOf t then true
  else
    match t with
    | [] => false
    | _ :: rest => containsSub rest p

/-- The characters the `re` pattern language treats specially. -/
def regexMetachars : List Char :=
  ['.', '^', '$', '*', '+', '?', '{', '}', '[', ']', '\\', '|', '(', ')']

/-- Embeds the outcome of `re.compile(query.pattern, flags)` on the pattern
fragment this development models: a metacharacter-free pattern is a plain
literal, which `re` always compiles.  Patterns containing metacharacters
are outside the modelled fragment; the embedding routes them to the
`re.error` branch, and no theorem below depends on which way compilation
goes for them (an `re.error` there may or may not occur in Python —
e.g. an unbalanced parenthesis fails while an alternation compiles). -/
def reCompileOk (pattern : String) : Bool :=
  pattern.data.all (fun c => !(regexMetachars.contains c))

/-- Message of the `SearchError` raised when the pattern does not compile
(the quoted pattern text and the chained `re.error` text are elided, like
the quote characters in the other embedded messages). -/
def invalidPatternMsg (pattern : String) : String :=
  "Invalid regex pattern " ++ pattern

/-- Embeds `pattern.search(text)` for a successfully compiled pattern of
the modelled fragment: a metacharacter-free literal matches exactly when
it occurs as a (case-folded, under `re.IGNORECASE`) substring. -/
def patternHits (pattern : String) (caseSensitive : Bool) (text : String) : Bool :=
  if caseSensitive then containsSub text.data pattern.data
  else containsSub (asciiLower text).data (asciiLower pattern).data

/-- Embeds `RegexNodeSearch._resolve_fields`: `id` and `name`, plus every
property key for a `PropertyNode`. -/
def resolve_fields (n : Node) : List String :=
  match n.props with
  | some ps => ["id", "name"] ++ ps.map Prod.fst
  | none => ["id", "name"]

/-- Embeds `RegexNodeSearch._extract_field`.  `hasattr` succeeds on the
model fields `id` and `name`; any other requested field falls through to
`properties.get(field_name)` for a `PropertyNode` and to `None` otherwise.
(Property keys shadowed by unrelated Python attributes such as `edges` are
outside the model; no claim touches them.) -/
def extract_field (n : Node) (fieldName : String) : PyValue :=
  if fieldName == "id" then PyValue.pyStr n.id
  else if fieldName == "name" then
    match n.name with
    | some s => PyValue.pyStr s
    | none => PyValue.pyNone
  else
    match n.props with
    | some ps =>
        match ps.find? (fun kv => kv.1 == fieldName) with
        | some kv => kv.2
        | none => PyValue.pyNone
    | none => PyValue.pyNone

/-- The text a field value contributes: `None` is skipped, numbers are
`str(value)`, strings are taken as-is. -/
def candidateText (v : PyValue) : Option String :=
  match v with
  | PyValue.pyNone => none
  | PyValue.pyStr s => some s
  | PyValue.pyInt n => some (toString n)

/-- Python dict assignment for the highlights dict. -/
def highlightsInsert (d : List (String × String)) (k v : String) :
    List (String × String) :=
  match d with
  | [] => [(k, v)]
  | (k0, v0) :: rest =>
      if k0 == k then (k0, v) :: rest else (k0, v0) :: highlightsInsert rest k v

/-- The field loop of `RegexNodeSearch._match_node`: accumulate a highlight
for every candidate field whose stringified value the pattern hits. -/
def matchFields (n : Node) (pattern : String) (caseSensitive : Bool) :
    List String → List (String × String) → List (String × String)
  | [], acc => acc
  | f :: fs, acc =>
      match candidateText (extract_field n f) with
      | none => matchFields n pattern caseSensitive fs acc
      | some text =>
          if patternHits pattern caseSensitive text then
            matchFields n pattern caseSensitive fs (highlightsInsert acc f text)
          else matchFields n pattern caseSensitive fs acc

/-- Embeds `RegexNodeSearch._match_node`: `none` when no field hits
(the empty dict is falsy), otherwise the score (count of hit fields) and
the highlights. -/
def match_node (n : Node) (fields : Option (List String)) (pattern : String)
    (caseSensitive : Bool) : Option (Int × List (String × String)) :=
  let candidateFields :=
    match fields with
    | some fs => if fs == [] then resolve_fields n else fs
    | none => resolve_fields n
  let highlights := matchFields n pattern caseSensitive candidateFields []
  if highlights == [] then none
  else some ((highlights.length : Int), highlights)

/-- Has `len(results) >= query.limit` been reached?  Python treats a limit
of `None` — and of `0` — as falsy, so those never stop accumulation. -/
def limitReached (limit : Option Nat) (resultCount : Nat) : Bool :=
  match limit with
  | some l => l != 0 && resultCount ≥ l
  | none => false

/-- The node loop of `RegexNodeSearch.search`: append a result per matching
node and stop once the limit is reached. -/
def regexSearchLoop (query : NodeSearchQuery) (fields : Option (List String)) :
    List Node → List NodeSearchResult → List NodeSearchResult
  | [], acc => acc
  | n :: ns, acc =>
      match match_node n fields query.pattern query.case_sensitive with
      | none => regexSearchLoop query fields ns acc
      | some (score, highlights) =>
          let acc' := acc ++ [{ node_id := n.id, score := some score,
                                highlights := highlights, nodeRef := some n.ref }]
          if limitReached query.limit acc'.length then acc'
          else regexSearchLoop query fields ns acc'

/-- Embeds `RegexNodeSearch.search`: first the pattern is compiled,
raising `SearchError` through the `try`/`except re.error` wrapper when it
does not; then the requested fields fall back to the strategy default
(`or`, so an explicit empty list also falls back inside `_match_node`) and
every node is matched in order. -/
def regexSearch (targetFields : Option (List String)) (nodes : List Node)
    (query : NodeSearchQuery) : Except Err (List NodeSearchResult) :=
  if reCompileOk query.pattern then
    let fields :=
      match query.fields with
      | some fs => if fs == [] then targetFields else some fs
      | none => targetFields
    Except.ok (regexSearchLoop query fields nodes [])
  else Except.error (Err.searchError (invalidPatternMsg query.pattern))

/-- Message of the `NotImplementedError` raised by `TFIDFNodeSearch`. -/
def tfidfMsg : String := "TF-IDF search strategy not implemented."

/-- Message of the `NotImplementedError` raised by `BM25NodeSearch`. -/
def bm25Msg : String := "BM25 search strategy not implemented."

/-- Dynamic dispatch of `strategy.search(nodes, query)` over the concrete
strategy classes: the regex strategy computes results, the two placeholder
strategies raise `NotImplementedError`. -/
def strategySearch (s : NodeSearchStrategy) (nodes : List Node)
    (query : NodeSearchQuery) : Except Err (List NodeSearchResult) :=
  match s.impl with
  | StrategyImpl.regexImpl targetFields => regexSearch targetFields nodes query
  | StrategyImpl.tfidfImpl => Except.error (Err.notImplementedError tfidfMsg)
  | StrategyImpl.bm25Impl => Except.error (Err.notImplementedError bm25Msg)

/-- The `query` argument of `Graph.search_nodes`:
`Union[NodeSearchQuery, str]`. -/
inductive QueryArg where
  | qstr : String → QueryArg
  | qobj : NodeSearchQuery → QueryArg

/-- Embeds `Graph.search_nodes`: normalise a bare string to a query with
default settings, resolve the strategy, and run it over the graph nodes. -/
def search_nodes (g : Graph) (query : QueryArg)
    (strategy : StrategyArg := StrategyArg.noArg) :
    Except Err (List NodeSearchResult) :=
  let normalizedQuery :=
    match query with
    | QueryArg.qstr s => { pattern := s : NodeSearchQuery }
    | QueryArg.qobj q => q
  match resolve_search_strategy g strategy with
  | Except.error e => Except.error e
  | Except.ok s => strategySearch s g.nodes normalizedQuery

end GraphPy

namespace GraphPy

/-- Node ids deduplicated in first-occurrence order: the key set of the dict
comprehension `{n.id: [] for n in self.nodes}` (a later duplicate re-assigns
the same key and does not move it). -/
def uniqueIds : List Node → List String → List String
  | [], _ => []
  | n :: ns, seen =>
      if n.id ∈ seen then uniqueIds ns seen
      else n.id :: uniqueIds ns (n.id :: seen)

/-- The adjacency dict initialised with an empty list per node id. -/
def adjInit (g : Graph) : List (String × List String) :=
  (uniqueIds g.nodes []).map (fun i => (i, []))

/-- Python `adj[k].append(v)`: extend the list bound to `k`, raising
`KeyError` when `k` is not a key. -/
def adjAppend (adj : List (String × List String)) (k v : String) :
    Except Err (List (String × List String)) :=
  match adj with
  | [] => Except.error Err.keyError
  | (k0, vs) :: rest =>
      if k0 == k then Except.ok ((k0, vs ++ [v]) :: rest)
      else
        match adjAppend rest k v with
        | Except.ok rest' => Except.ok ((k0, vs) :: rest')
        | Except.error e => Except.error e

/-- One edge of the base (and undirected) adjacency loop: both directions
are appended, source first. -/
def adjStepBoth (adj : List (String × List String)) (e : Edge) :
    Except Err (List (String × List String)) :=
  match adjAppend adj e.source e.target with
  | Except.error err => Except.error err
  | Except.ok adj1 => adjAppend adj1 e.target e.source

/-- One edge of the `DirectedGraph` adjacency loop: only source → target. -/
def adjStepDir (adj : List (String × List String)) (e : Edge) :
    Except Err (List (String × List String)) :=
  adjAppend adj e.source e.target

/-- The edge loop of the adjacency property. -/
def adjFold (step : List (String × List String) → Edge →
    Except Err (List (String × List String)))
    (adj : List (String × List String)) :
    List Edge → Except Err (List (String × List String))
  | [] => Except.ok adj
  | e :: es =>
      match step adj e with
      | Except.error err => Except.error err
      | Except.ok adj' => adjFold step adj' es

/-- Embeds the `adjacency` property with dynamic dispatch: the base `Graph`
and `UndirectedGraph` treat every edge as bidirectional, `DirectedGraph`
follows only source → target.  A dangling endpoint surfaces as the
`KeyError` the dict comprehension result raises. -/
def adjacency (g : Graph) : Except Err (List (String × List String)) :=
  match g.kind with
  | GraphKind.directed => adjFold adjStepDir (adjInit g) g.edges
  | _ => adjFold adjStepBoth (adjInit g) g.edges

/-- Python `adjacency.get(k, [])` on the computed dict. -/
def adjGet (adj : List (String × List String)) (k : String) : List String :=
  match adj.find? (fun kv => kv.1 == k) with
  | some kv => kv.2
  | none => []

/-- Embeds the per-call lookup `{node.id: node for node in graph.nodes}`;
on duplicate ids the later node wins, exactly as dict comprehension
re-assignment does. -/
def idToNode (g : Graph) (i : String) : Option Node :=
  g.nodes.reverse.find? (fun n => n.id == i)

/-- Embeds the reconstruction `[id_to_node[node_id] for node_id in path]`,
raising `KeyError` on an unknown id. -/
def reconstructNodes (lookup : String → Option Node) :
    List String → Except Err (List Node)
  | [] => Except.ok []
  | i :: is =>
      match lookup i with
      | none => Except.error Err.keyError
      | some n =>
          match reconstructNodes lookup is with
          | Except.ok ns => Except.ok (n :: ns)
          | Except.error e => Except.error e

/-- Result of scanning the neighbor list of a dequeued node in `bfs`:
either the target was discovered (with the finished id path and the updated
visited set and discovery log), or scanning finished with entries to
enqueue. -/
inductive BfsScan where
  | found : List String → List String → List String → BfsScan
  | cont : List String → List (String × List String) → List String → BfsScan

/-- The neighbor loop of one `bfs` iteration over dequeued `(cur, path)`:
already-visited neighbors are skipped, fresh ones are marked visited
immediately (visited-on-enqueue), the target returns its path at once, and
the rest are collected for the queue.  `log` is a ghost record of the ids
marked visited, in order; the Python code does not compute it and no result
depends on it. -/
def bfsScan (trgId : String) (path : List String) :
    List String → List String → List (String × List String) → List String → BfsScan
  | [], vis, acc, log => BfsScan.cont vis acc log
  | y :: ys, vis, acc, log =>
      if y ∈ vis then bfsScan trgId path ys vis acc log
      else
        let vis' := y :: vis
        let log' := log ++ [y]
        if y == trgId then BfsScan.found (path ++ [y]) vis' log'
        else bfsScan trgId path ys vis' (acc ++ [(y, path ++ [y])]) log'

/-- The `while queue:` loop of `bfs` over a FIFO queue of
`(node id, path so far)`, with the adjacency dict abstracted to its `get`
function.  `fuel` bounds the iterations; `bfs` supplies enough fuel for the
loop to run to completion (proved below). -/
def bfsAux (adjf : String → List String) (lookup : String → Option Node)
    (trgId : String) :
    Nat → List (String × List String) → List String → List String →
    Except Err (Option (List Node) × List String)
  | 0, _, _, _ => Except.error Err.outOfFuel
  | _ + 1, [], _, log => Except.ok (none, log)
  | fuel + 1, (cur, path) :: rest, vis, log =>
      match bfsScan trgId path (adjf cur) vis [] log with
      | BfsScan.found idpath _ log' =>
          match reconstructNodes lookup idpath with
          | Except.ok ns => Except.ok (some ns, log')
          | Except.error e => Except.error e
      | BfsScan.cont vis' entries log' =>
          bfsAux adjf lookup trgId fuel (rest ++ entries) vis' log'

/-- Fuel sufficient for the BFS loop: every iteration dequeues one entry,
and entries only enter the queue for fresh ids drawn from the source id and
the adjacency values, so the iteration count is bounded by that universe
plus the initial queue entry. -/
def bfsFuel (adj : List (String × List String)) (srcId : String) : Nat :=
  ((srcId :: (adj.map Prod.snd).flatten).dedup).length + 2

/-- Embeds `bfs` including its ghost discovery log: membership assertion,
trivial same-id path, then the queue loop seeded with the source (which is
marked visited up front). -/
def bfsRun (g : Graph) (src trg : Node) :
    Except Err (Option (List Node) × List String) :=
  if !(memberCheck g src trg) then Except.error Err.assertionError
  else if src.id == trg.id then Except.ok (some [src], [])
  else
    match adjacency g with
    | Except.error e => Except.error e
    | Except.ok adj =>
        bfsAux (adjGet adj) (idToNode g) trg.id (bfsFuel adj src.id)
          [(src.id, [src.id])] [src.id] []

/-- Embeds `bfs` from algorithms/bfs.py: the result with the ghost log
projected away. -/
def bfs (g : Graph) (src trg : Node) : Except Err (Option (List Node)) :=
  match bfsRun g src trg with
  | Except.ok (r, _) => Except.ok r
  | Except.error e => Except.error e

/-- The ids `bfs` marks visited during its run (its discovery log), used to
state that no node is enqueued twice. -/
def bfsLog (g : Graph) (src trg : Node) : List String :=
  match bfsRun g src trg with
  | Except.ok (_, log) => log
  | Except.error _ => []

/-- The `while stack:` loop of `dfs` over a LIFO stack of
`(node id, path so far)`: nodes are marked visited on pop, and the
neighbors of the popped node are pushed iterating `reversed(adjacency)`.
The list head models the stack top, so appending the reversed neighbor list
one by one at the Python stack top is consing the neighbor list in forward
order here (the visited filter commutes: the visited set does not change
while pushing). -/
def dfsAux (adjf : String → List String) (lookup : String → Option Node)
    (trgId : String) :
    Nat → List (String × List String) → List String →
    Except Err (Option (List Node))
  | 0, _, _ => Except.error Err.outOfFuel
  | _ + 1, [], _ => Except.ok none
  | fuel + 1, (cur, path) :: rest, vis =>
      if cur ∈ vis then dfsAux adjf lookup trgId fuel rest vis
      else if cur == trgId then
        match reconstructNodes lookup path with
        | Except.ok ns => Except.ok (some ns)
        | Except.error e => Except.error e
      else
        let vis' := cur :: vis
        let pushes := ((adjf cur).filter (fun y => !(y ∈ vis'))).map
          (fun y => (y, path ++ [y]))
        dfsAux adjf lookup trgId fuel (pushes ++ rest) vis'

/-- Fuel sufficient for the DFS loop (each processed id is fresh and each
processing pushes at most the whole adjacency image). -/
def dfsFuel (adj : List (String × List String)) (srcId : String) : Nat :=
  let uni := ((srcId :: (adj.map Prod.snd).flatten).dedup).length
  uni * ((adj.map Prod.snd).flatten.length + 1) + 2

/-- Embeds `dfs` from algorithms/dfs.py: membership assertion, trivial
same-id path, then the stack loop. -/
def dfs (g : Graph) (src trg : Node) : Except Err (Option (List Node)) :=
  if !(memberCheck g src trg) then Except.error Err.assertionError
  else if src.id == trg.id then Except.ok (some [src])
  else
    match adjacency g with
    | Except.error e => Except.error e
    | Except.ok adj =>
        dfsAux (adjGet adj) (idToNode g) trg.id (dfsFuel adj src.id)
          [(src.id, [src.id])] []

end GraphPy

namespace GraphPy

/-- Tentative distances: `none` is `inf`. -/
abbrev DistMap := List (String × Option Int)

/-- Predecessor map for path reconstruction. -/
abbrev PrevMap := List (String × Option String)

/-- Python `d[k]` read on a dict, raising `KeyError` when absent. -/
def dictGet (d : List (String × Option Int)) (k : String) :
    Except Err (Option Int) :=
  match d.find? (fun kv => kv.1 == k) with
  | some kv => Except.ok kv.2
  | none => Except.error Err.keyError

/-- Python `d[k]` read on the predecessor dict. -/
def prevGet (d : PrevMap) (k : String) : Except Err (Option String) :=
  match d.find? (fun kv => kv.1 == k) with
  | some kv => Except.ok kv.2
  | none => Except.error Err.keyError

/-- Python dict assignment on the distance map: rebind in place or append. -/
def distSet (d : DistMap) (k : String) (v : Option Int) : DistMap :=
  match d with
  | [] => [(k, v)]
  | (k0, v0) :: rest =>
      if k0 == k then (k0, v) :: rest else (k0, v0) :: distSet rest k v

/-- Python dict assignment on the predecessor map. -/
def prevSet (d : PrevMap) (k : String) (v : Option String) : PrevMap :=
  match d with
  | [] => [(k, v)]
  | (k0, v0) :: rest =>
      if k0 == k then (k0, v) :: rest else (k0, v0) :: prevSet rest k v

/-- `c > d` for a finite float against a possibly infinite stored distance. -/
def finGtOpt (c : Int) (d : Option Int) : Bool :=
  match d with
  | none => false
  | some v => v < c

/-- `c < d` for a finite candidate against a possibly infinite distance. -/
def finLtOpt (c : Int) (d : Option Int) : Bool :=
  match d with
  | none => true
  | some v => c < v

/-- `inf + w = inf`, otherwise ordinary addition. -/
def optAdd (d : Option Int) (w : Int) : Option Int :=
  match d with
  | none => none
  | some v => some (v + w)

/-- `<` on two possibly infinite values (`inf < x` is always false). -/
def optLt (a b : Option Int) : Bool :=
  match a, b with
  | none, _ => false
  | some _, none => true
  | some x, some y => x < y

/-- Embeds `_build_weight_lookup` (identical module-level helpers in
dijkstra.py and bellman_ford.py): each edge maps its `(source, target)`
pair to `float(getattr(edge, "weight", 1.0))`.  The `Edge` model declares
no `weight` field, so `getattr` always produces the default and every
stored weight is `1.0`. -/
def build_weight_lookup (g : Graph) : List ((String × String) × Int) :=
  g.edges.map (fun e => ((e.source, e.target), (1 : Int)))

/-- Embeds `_resolve_weight`: `(source, target)` first, then the reversed
orientation, then the default `1.0`.  Lookup takes the last binding of a
pair, as repeated dict assignment would leave it. -/
def resolve_weight (lkp : List ((String × String) × Int)) (s t : String) : Int :=
  match lkp.reverse.find? (fun kv => kv.1 == (s, t)) with
  | some kv => kv.2
  | none =>
      match lkp.reverse.find? (fun kv => kv.1 == (t, s)) with
      | some kv => kv.2
      | none => 1

/-- The cost of an id path under the shared weight-resolution rule: the sum
of the resolved weights of its consecutive steps. -/
def pathCost (g : Graph) : List String → Int
  | a :: b :: rest => resolve_weight (build_weight_lookup g) a b + pathCost g (b :: rest)
  | _ => 0

/-- Python string `<`: lexicographic comparison of code points. -/
def pyStrLt : List Char → List Char → Bool
  | [], [] => false
  | [], _ :: _ => true
  | _ :: _, [] => false
  | a :: as, b :: bs =>
      if a.toNat < b.toNat then true
      else if b.toNat < a.toNat then false
      else pyStrLt as bs

/-- Strict lexicographic order on heap entries `(distance, node id)`; this
is the order `heapq` compares tuples with. -/
def heapLt (a b : Int × String) : Bool :=
  a.1 < b.1 || (a.1 == b.1 && pyStrLt a.2.data b.2.data)

/-- `heappop`: remove the least entry (the leftmost one among equals; equal
entries are indistinguishable values, so any choice is extensionally the
heap behaviour).  The remaining entries keep their relative order, which
only matters through later minimum extractions. -/
def popMin : List (Int × String) → Option ((Int × String) × List (Int × String))
  | [] => none
  | x :: xs =>
      match popMin xs with
      | none => some (x, [])
      | some (m, rest) => if heapLt m x then some (m, x :: rest) else some (x, xs)

/-- Message of the `ValueError` Dijkstra raises on a negative weight (quote
characters are dropped from the embedded message text). -/
def dijkstraNegMsg : String :=
  "Dijkstra algorithm requires non-negative edge weights"

/-- The neighbor relaxation loop of one Dijkstra iteration: fail on a
negative weight, otherwise relax, record the predecessor and push the
improved candidate. -/
def dijkstraRelax (wres : String → String → Int) (cur : String) (d : Int) :
    List String → List (Int × String) → DistMap → PrevMap →
    Except Err (List (Int × String) × DistMap × PrevMap)
  | [], heap, dist, prev => Except.ok (heap, dist, prev)
  | y :: ys, heap, dist, prev =>
      let w := wres cur y
      if w < 0 then Except.error (Err.valueError dijkstraNegMsg)
      else
        let cand := d + w
        match dictGet dist y with
        | Except.error e => Except.error e
        | Except.ok dy =>
            if finLtOpt cand dy then
              dijkstraRelax wres cur d ys (heap ++ [(cand, y)])
                (distSet dist y (some cand)) (prevSet prev y (some cur))
            else dijkstraRelax wres cur d ys heap dist prev

/-- The `while heap:` loop of `dijkstra`: pop the closest entry, skip it
when stale, stop when the target is popped, otherwise relax its
neighbors. -/
def dijkstraLoop (adjf : String → List String) (wres : String → String → Int)
    (trgId : String) :
    Nat → List (Int × String) → DistMap → PrevMap →
    Except Err (DistMap × PrevMap)
  | 0, _, _, _ => Except.error Err.outOfFuel
  | fuel + 1, heap, dist, prev =>
      match popMin heap with
      | none => Except.ok (dist, prev)
      | some ((d, cur), rest) =>
          match dictGet dist cur with
          | Except.error e => Except.error e
          | Except.ok dcur =>
              if finGtOpt d dcur then dijkstraLoop adjf wres trgId fuel rest dist prev
              else if cur == trgId then Except.ok (dist, prev)
              else
                match dijkstraRelax wres cur d (adjf cur) rest dist prev with
                | Except.error e => Except.error e
                | Except.ok (heap', dist', prev') =>
                    dijkstraLoop adjf wres trgId fuel heap' dist' prev'

/-- The reconstruction walk shared by Dijkstra and Bellman-Ford: follow
predecessors from the target until `None`, collecting ids (reversed by the
caller). -/
def walkPrev (prev : PrevMap) : Nat → String → List String →
    Except Err (List String)
  | 0, _, _ => Except.error Err.outOfFuel
  | fuel + 1, cur, acc =>
      match prevGet prev cur with
      | Except.error e => Except.error e
      | Except.ok none => Except.ok (acc ++ [cur])
      | Except.ok (some p) => walkPrev prev fuel p (acc ++ [cur])

/-- The initial distance map: every node id at `inf`, then the source set
to `0.0` (dict assignment, so an absent source id would be added). -/
def distInit (g : Graph) (srcId : String) : DistMap :=
  distSet ((uniqueIds g.nodes []).map (fun i => (i, (none : Option Int)))) srcId (some 0)

/-- The initial predecessor map: every node id at `None`. -/
def prevInit (g : Graph) : PrevMap :=
  (uniqueIds g.nodes []).map (fun i => (i, (none : Option String)))

/-- Fuel for the Dijkstra loop and reconstruction; generous enough for
every concrete run proved below (the Python loop has no bound). -/
def dijkstraFuel (g : Graph) : Nat :=
  (g.nodes.length + g.edges.length + 2) * (g.nodes.length + g.edges.length + 2) * 4

/-- Embeds `dijkstra` from algorithms/dijkstra.py: membership assertion,
trivial same-id path, adjacency, weight lookup, the heap loop, then `None`
for an infinite target distance or the reconstructed node path. -/
def dijkstra (g : Graph) (src trg : Node) : Except Err (Option (List Node)) :=
  if !(memberCheck g src trg) then Except.error Err.assertionError
  else if src.id == trg.id then Except.ok (some [src])
  else
    match adjacency g with
    | Except.error e => Except.error e
    | Except.ok adj =>
        let wres := resolve_weight (build_weight_lookup g)
        match dijkstraLoop (adjGet adj) wres trg.id (dijkstraFuel g)
            [((0 : Int), src.id)] (distInit g src.id) (prevInit g) with
        | Except.error e => Except.error e
        | Except.ok (dist, prev) =>
            match dictGet dist trg.id with
            | Except.error e => Except.error e
            | Except.ok none => Except.ok none
            | Except.ok (some _) =>
                match walkPrev prev (g.nodes.length + 2) trg.id [] with
                | Except.error e => Except.error e
                | Except.ok ids =>
                    match reconstructNodes (idToNode g) ids.reverse with
                    | Except.error e => Except.error e
                    | Except.ok ns => Except.ok (some ns)

/-- Embeds `_expand_edges`: every adjacency-implied `(source, target)` pair
with its resolved weight, in dict iteration order. -/
def expand_edges (adj : List (String × List String))
    (lkp : List ((String × String) × Int)) : List (String × String × Int) :=
  (adj.map (fun kv => kv.2.map (fun t => (kv.1, t, resolve_weight lkp kv.1 t)))).flatten

/-- Message of the `ValueError` Bellman-Ford raises on a negative cycle. -/
def negCycleMsg : String :=
  "Bellman-Ford algorithm detected a negative-weight cycle"

/-- One relaxation pass of Bellman-Ford over the expanded edge list,
threading whether any distance improved. -/
def bfRelaxPass : List (String × String × Int) → DistMap → PrevMap → Bool →
    Except Err (DistMap × PrevMap × Bool)
  | [], dist, prev, upd => Except.ok (dist, prev, upd)
  | (s, t, w) :: es, dist, prev, upd =>
      match dictGet dist s with
      | Except.error e => Except.error e
      | Except.ok none => bfRelaxPass es dist prev upd
      | Except.ok (some ds) =>
          let cand := ds + w
          match dictGet dist t with
          | Except.error e => Except.error e
          | Except.ok dt =>
              if finLtOpt cand dt then
                bfRelaxPass es (distSet dist t (some cand)) (prevSet prev t (some s)) true
              else bfRelaxPass es dist prev upd

/-- The up-to-`|V| - 1` relaxation passes with early exit when a pass makes
no update. -/
def bfPasses (edges : List (String × String × Int)) :
    Nat → DistMap → PrevMap → Except Err (DistMap × PrevMap)
  | 0, dist, prev => Except.ok (dist, prev)
  | k + 1, dist, prev =>
      match bfRelaxPass edges dist prev false with
      | Except.error e => Except.error e
      | Except.ok (dist', prev', upd) =>
          if upd then bfPasses edges k dist' prev' else Except.ok (dist', prev')

/-- The extra pass detecting a negative-weight cycle: any edge that still
relaxes raises the `ValueError`. -/
def bfCheckPass : List (String × String × Int) → DistMap → Except Err Unit
  | [], _ => Except.ok ()
  | (s, t, w) :: es, dist =>
      match dictGet dist s with
      | Except.error e => Except.error e
      | Except.ok ds =>
          match dictGet dist t with
          | Except.error e => Except.error e
          | Except.ok dt =>
              if optLt (optAdd ds w) dt then
                Except.error (Err.valueError negCycleMsg)
              else bfCheckPass es dist

/-- Embeds `bellman_ford` from algorithms/bellman_ford.py: membership
assertion, trivial same-id path, adjacency, expanded weighted edges,
relaxation passes, cycle check, then `None` or the reconstructed path. -/
def bellman_ford (g : Graph) (src trg : Node) : Except Err (Option (List Node)) :=
  if !(memberCheck g src trg) then Except.error Err.assertionError
  else if src.id == trg.id then Except.ok (some [src])
  else
    match adjacency g with
    | Except.error e => Except.error e
    | Except.ok adj =>
        let edges := expand_edges adj (build_weight_lookup g)
        match bfPasses edges (g.nodes.length - 1) (distInit g src.id) (prevInit g) with
        | Except.error e => Except.error e
        | Except.ok (dist, prev) =>
            match bfCheckPass edges dist with
            | Except.error e => Except.error e
            | Except.ok _ =>
                match dictGet dist trg.id with
                | Except.error e => Except.error e
                | Except.ok none => Except.ok none
                | Except.ok (some _) =>
                    match walkPrev prev (g.nodes.length + 2) trg.id [] with
                    | Except.error e => Except.error e
                    | Except.ok ids =>
                        match reconstructNodes (idToNode g) ids.reverse with
                        | Except.error e => Except.error e
                        | Except.ok ns => Except.ok (some ns)

end GraphPy

namespace GraphPy

/-- Embeds `_clone_node`: a value clone from the model dump excluding the
`graph` back-reference.  The clone is a fresh Python object; its address is
not tracked because no claim observes clone identity. -/
def clone_node (n : Node) : Node :=
  { n with graphRef := none }

/-- Embeds `_clone_edge`: a value clone of the edge. -/
def clone_edge (e : Edge) : Edge := e

/-- Embeds `_resolve_graph_type` over the closed class hierarchy: identical
classes keep their class, a proper subclass wins over `Graph`, and the two
unrelated subclasses fall back to `Graph`. -/
def resolve_graph_type (a b : GraphKind) : GraphKind :=
  if a = b then a
  else if b = GraphKind.base then a
  else if a = GraphKind.base then b
  else GraphKind.base

/-- The `nodes_seen` collection of `graph_union`: deduplicate by node id,
first occurrence wins, values cloned. -/
def dedupNodesById (seen : List String) : List Node → List Node
  | [] => []
  | n :: ns =>
      if n.id ∈ seen then dedupNodesById seen ns
      else clone_node n :: dedupNodesById (n.id :: seen) ns

/-- The `edges_seen` collection of `graph_union`: deduplicate by edge id,
first occurrence wins, values cloned. -/
def dedupEdgesById (seen : List String) : List Edge → List Edge
  | [] => []
  | e :: es =>
      if e.id ∈ seen then dedupEdgesById seen es
      else clone_edge e :: dedupEdgesById (e.id :: seen) es

/-- The edge loop of `_build_graph`: add an edge (through the possibly
overridden `add_edge`) only when both endpoints resolve to nodes. -/
def buildGraphEdges (g : Graph) : List Edge → Graph
  | [] => g
  | e :: es =>
      if (get_node g e.source).isSome && (get_node g e.target).isSome then
        buildGraphEdges (add_edge g e) es
      else buildGraphEdges g es

/-- Embeds `_build_graph`: construct a fresh graph of the resolved class
(running `__init__`, hence with the regex strategy registered), `add_node`
every collected node, then add each edge whose endpoints exist.  The fresh
object address is modelled as `0`; no claim observes it. -/
def build_graph (kind : GraphKind) (graphId : String) (graphName : Option String)
    (nodes : List Node) (edges : List Edge) : Graph :=
  buildGraphEdges (nodes.foldl add_node (mkGraph 0 kind graphId graphName [] [])) edges

/-- Python `a or b` for the optional graph name falling back to the id
(an empty name string is falsy). -/
def nameOrId (g : Graph) : String :=
  match g.name with
  | some s => if s == "" then g.id else s
  | none => g.id

/-- Embeds `graph_union`: resolved result class, nodes of both graphs
deduplicated by id (first wins), edges deduplicated by id, synthesised id
and name, assembled by `_build_graph`. -/
def graph_union (ga gb : Graph) : Graph :=
  let kind := resolve_graph_type ga.kind gb.kind
  let nodesSeen := dedupNodesById [] (ga.nodes ++ gb.nodes)
  let edgesSeen := dedupEdgesById [] (ga.edges ++ gb.edges)
  let graphId := ga.id ++ "_union_" ++ gb.id
  let graphName := "Union(" ++ nameOrId ga ++ ", " ++ nameOrId gb ++ ")"
  build_graph kind graphId (some graphName) nodesSeen edgesSeen

/-- A nonempty id path through the adjacency `get` view: starts at `s`,
ends at `t`, and every consecutive pair is an adjacency step. -/
def IdPath (adjf : String → List String) (s t : String) (l : List String) : Prop :=
  l ≠ [] ∧ l.head? = some s ∧ l.getLast? = some t ∧
    l.Chain' (fun a b => b ∈ adjf a)

/-- `t` is reachable from `s` through the adjacency view. -/
def Reachable (adjf : String → List String) (s t : String) : Prop :=
  ∃ l, IdPath adjf s t l

end GraphPy

namespace GraphPy

/-- Embeds `Graph.unregister_search_strategy`: remove the key; when it was
the default, the next remaining key (or none) becomes the default.  This is
how a graph can reach the no-strategies state. -/
def unregister_search_strategy (g : Graph) (key : String) : Graph :=
  if g.searchStrategies.any (fun kv => kv.1 == key) then
    let remaining := g.searchStrategies.filter (fun kv => kv.1 != key)
    if g.defaultStrategyKey == some key then
      { g with searchStrategies := remaining,
               defaultStrategyKey := (remaining.head?).map Prod.fst }
    else { g with searchStrategies := remaining }
  else g

instance {ε α : Type} [DecidableEq ε] [DecidableEq α] : DecidableEq (Except ε α) := fun x y =>
  match x, y with
  | Except.ok a, Except.ok b =>
      if h : a = b then Decidable.isTrue (by rw [h])
      else Decidable.isFalse (fun hc => h (Except.ok.inj hc))
  | Except.error a, Except.error b =>
      if h : a = b then Decidable.isTrue (by rw [h])
      else Decidable.isFalse (fun hc => h (Except.error.inj hc))
  | Except.ok _, Except.error _ => Decidable.isFalse (fun hc => Except.noConfusion hc)
  | Except.error _, Except.ok _ => Decidable.isFalse (fun hc => Except.noConfusion hc)

/-- Node `A` of the concrete scenarios (object address 1). -/
def nodeA0 : Node := { ref := 1, id := "A" }

/-- Node `B` of the concrete scenarios (object address 2). -/
def nodeB0 : Node := { ref := 2, id := "B" }

/-- Node `C` of the concrete scenarios (object address 3). -/
def nodeC0 : Node := { ref := 3, id := "C" }

/-- `Edge(id="e1", source="A", target="B", weight=1)`: the weight keyword
is silently discarded because `Edge` declares no such field. -/
def eAB : Edge := { id := "e1", source := "A", target := "B" }

/-- `Edge(id="e2", source="B", target="C", weight=1)` (weight discarded). -/
def eBC : Edge := { id := "e2", source := "B", target := "C" }

/-- `Edge(id="e3", source="A", target="C", weight=5)` (weight discarded). -/
def eAC : Edge := { id := "e3", source := "A", target := "C" }

/-- The Dijkstra scenario graph of C1: nodes `{A, B, C}` added through
`add_node`, the three weights-attempted edges through `add_edge`. -/
def gC1 : Graph :=
  add_edge (add_edge (add_edge
    (add_node (add_node (add_node (mkGraph 10 GraphKind.base "g1") nodeA0) nodeB0) nodeC0)
    eAB) eBC) eAC

/-- Node `A` as stored in `gC1` (back-reference assigned by `add_node`). -/
def gC1nodeA : Node := { nodeA0 with graphRef := some 10 }

/-- Node `C` as stored in `gC1`. -/
def gC1nodeC : Node := { nodeC0 with graphRef := some 10 }

/-- C1: the spec scenario claims `dijkstra(graph, A, C)` returns
`[A, B, C]` with total cost 2.  The code returns the direct path `[A, C]`
with total cost 1: `Edge` stores no `weight` field, so the constructor
weights (1, 1, 5) are discarded and every edge weight resolves to the
default `1.0`, making the one-hop path cheapest.  This contradicts the
spec's data model (Edge "optional numeric weight") and makes the weight
machinery of dijkstra.py dead code, so it is recorded as a code bug. -/
theorem c1_dijkstra_weight_attribute_dropped :
    dijkstra gC1 gC1nodeA gC1nodeC = Except.ok (some [gC1nodeA, gC1nodeC]) ∧
    pathCost gC1 ["A", "C"] = 1 ∧
    pathCost gC1 ["A", "B", "C"] = 2 ∧
    (some [gC1nodeA, gC1nodeC] ≠
      some [gC1nodeA, { nodeB0 with graphRef := some 10 }, gC1nodeC]) := by
  refine ⟨by decide, by decide, by decide, by decide⟩

/-- `Edge(id="e2", source="B", target="A", weight=-1)` of the C2 scenario
(weight discarded). -/
def eBA : Edge := { id := "e2", source := "B", target := "A" }

/-- The Bellman-Ford scenario graph of C2: nodes `{A, B}`, edges `A→B` and
`B→A` constructed with weight `-1`, which `Edge` discards. -/
def gC2 : Graph :=
  add_edge (add_edge
    (add_node (add_node (mkGraph 20 GraphKind.base "g2") nodeA0) nodeB0)
    eAB) eBA

/-- Node `A` as stored in `gC2`. -/
def gC2nodeA : Node := { nodeA0 with graphRef := some 20 }

/-- Node `B` as stored in `gC2`. -/
def gC2nodeB : Node := { nodeB0 with graphRef := some 20 }

/-- C2: the spec scenario claims `bellman_ford` on the two-node graph with
`A→B` and `B→A` both of weight `-1` raises the negative-weight-cycle
failure.  The code instead returns the finite-cost path `[A, B]`: the
`weight=-1` keywords are discarded by the weightless `Edge` model, every
resolved weight is `1.0`, and no negative cycle exists.  The cycle-check
pass of bellman_ford.py can never fire with a weightless Edge, so this is
recorded as a code bug against the spec's clear intent. -/
theorem c2_bellman_ford_weight_attribute_dropped :
    bellman_ford gC2 gC2nodeA gC2nodeB = Except.ok (some [gC2nodeA, gC2nodeB]) ∧
    bellman_ford gC2 gC2nodeA gC2nodeB ≠ Except.error (Err.valueError negCycleMsg) := by
  refine ⟨by decide, by decide⟩

/-- The `PropertyNode` of the C6 search scenario: property
`color = "red"`, id `"n1"` and no name (neither matches the pattern). -/
def propNode : Node := { ref := 1, id := "n1", props := some [("color", PyValue.pyStr "red")] }

/-- The C6 scenario graph holding exactly the one PropertyNode. -/
def gC6 : Graph := add_node (mkGraph 30 GraphKind.base "g6") propNode

/-- C6: searching the C6 graph for the pattern `"red"` (case-insensitive,
the query defaults) through the default concrete pattern-match strategy
returns exactly one result whose highlights map is `{"color": "red"}` and
whose score is 1, the count of hit fields. -/
theorem c6_property_node_search_scenario :
    search_nodes gC6 (QueryArg.qstr "red") =
      Except.ok [{ node_id := "n1", score := some 1,
                   highlights := [("color", "red")], nodeRef := some 1 }] := by
  decide

end GraphPy

namespace GraphPy

/-- The regex strategy never raises the unknown-strategy failure: its
search either computes results or raises `SearchError` on a pattern that
does not compile — whichever way compilation goes, the error class is not
`UnknownStrategyError`. -/
theorem regexSearch_not_unknown (targetFields : Option (List String))
    (nodes : List Node) (query : NodeSearchQuery) (msg : String) :
    regexSearch targetFields nodes query ≠
      Except.error (Err.unknownStrategyError msg) := by
  rw [regexSearch]
  by_cases hc : reCompileOk query.pattern = true
  · rw [if_pos hc]
    intro h
    exact Except.noConfusion h
  · rw [if_neg hc]
    intro h
    exact Err.noConfusion (Except.error.inj h)

/-- C9: every freshly constructed graph — any class, id, name, nodes,
edges — leaves `__init__` with exactly the regex strategy registered under
`"regex"` as the default, so `list_search_strategies` contains `"regex"`,
the default resolves to the `RegexNodeSearch` instance, and `search_nodes`
without an explicit strategy never raises the unknown-strategy failure
(on a malformed pattern it raises `SearchError`, a different class). -/
theorem c9_fresh_graph_regex_default (ref : Nat) (kind : GraphKind) (id : String)
    (name : Option String) (nodes : List Node) (edges : List Edge) :
    list_search_strategies (mkGraph ref kind id name nodes edges) = ["regex"] ∧
    (mkGraph ref kind id name nodes edges).defaultStrategyKey = some "regex" ∧
    resolve_search_strategy (mkGraph ref kind id name nodes edges) StrategyArg.noArg =
      Except.ok regexDefaultStrategy ∧
    ∀ q msg, search_nodes (mkGraph ref kind id name nodes edges) q ≠
      Except.error (Err.unknownStrategyError msg) := by
  refine ⟨rfl, rfl, rfl, fun q msg => ?_⟩
  exact regexSearch_not_unknown none nodes
    (match q with
     | QueryArg.qstr s => { pattern := s }
     | QueryArg.qobj q0 => q0) msg

/-- Node `a` (address 1) of the C3 identity scenario. -/
def yNode : Node := { ref := 1, id := "a" }

/-- Node `b` (address 2) of the C3 identity scenario. -/
def tNode : Node := { ref := 2, id := "b" }

/-- Edge `a → b` of the C3 identity scenario. -/
def eab : Edge := { id := "e", source := "a", target := "b" }

/-- The C3 scenario graph (address 50) with members `a`, `b` and one edge. -/
def gC3 : Graph :=
  add_edge (add_node (add_node (mkGraph 50 GraphKind.base "g3") yNode) tNode) eab

/-- A fresh node object (address 99) that is NOT one of the graph's node
objects but whose fields — id, name, graph back-reference — equal the
stored member's. -/
def zNode : Node := { ref := 99, id := "a", graphRef := some 50 }

/-- Node `a` as stored in `gC3`. -/
def gC3nodeA : Node := { ref := 1, id := "a", graphRef := some 50 }

/-- Node `b` as stored in `gC3`. -/
def gC3nodeB : Node := { ref := 2, id := "b", graphRef := some 50 }

/-- C3 counterexample: membership is NOT decided by object identity.  The
fresh object `zNode` is not one of the graph's node objects, yet Python's
`in` accepts it through pydantic value equality, and `bfs` runs to a normal
path result instead of failing the precondition assertion as the claim
requires for a non-member. -/
theorem c3_value_equality_passes_membership :
    identityMember zNode gC3.nodes = false ∧
    pyIn zNode gC3.nodes = true ∧
    bfs gC3 zNode gC3nodeB = Except.ok (some [gC3nodeA, gC3nodeB]) ∧
    bfs gC3 zNode gC3nodeB ≠ Except.error Err.assertionError := by
  refine ⟨by decide, by decide, by decide, by decide⟩

/-- C3 as amended: when the source or the target fails the membership
check Python actually performs — value equality after the identity
shortcut — every one of the four algorithms fails with the fatal
`AssertionError` rather than returning a recoverable error or the absent
result. -/
theorem c3_nonmember_assertion_failure (g : Graph) (src trg : Node)
    (h : memberCheck g src trg = false) :
    bfs g src trg = Except.error Err.assertionError ∧
    dfs g src trg = Except.error Err.assertionError ∧
    dijkstra g src trg = Except.error Err.assertionError ∧
    bellman_ford g src trg = Except.error Err.assertionError := by
  refine ⟨?_, ?_, ?_, ?_⟩
  · simp [bfs, bfsRun, h]
  · simp [dfs, h]
  · simp [dijkstra, h]
  · simp [bellman_ford, h]

/-- An empty graph and a stray node used to witness the assertion
failure. -/
def gEmpty : Graph := mkGraph 80 GraphKind.base "ge"

/-- A node that belongs to no graph. -/
def wNode : Node := { ref := 5, id := "w" }

/-- Witness for the amended C3 at a concrete non-member call. -/
theorem c3_nonmember_assertion_failure_witness :
    memberCheck gEmpty wNode wNode = false ∧
    bfs gEmpty wNode wNode = Except.error Err.assertionError :=
  ⟨by decide, (c3_nonmember_assertion_failure gEmpty wNode wNode (by decide)).1⟩

/-- C5: the strategy-resolution contract of `_resolve_search_strategy`.
An explicit instance wins; an explicit key resolves when registered and
raises `UnknownStrategyError` with the key-specific message when not; an
unusable default (unset, empty, or no longer registered) falls through to
the first registered strategy; with nothing registered the call raises
`UnknownStrategyError` with the distinct no-strategies message — so the two
failure conditions are distinguishable by their messages. -/
theorem c5_strategy_resolution_spec (g : Graph) (st : NodeSearchStrategy) (k dk : String) :
    (resolve_search_strategy g (StrategyArg.inst st) = Except.ok st) ∧
    (∀ v, g.searchStrategies.find? (fun kv => kv.1 == k) = some v →
      resolve_search_strategy g (StrategyArg.key k) = Except.ok v.2) ∧
    (g.searchStrategies.find? (fun kv => kv.1 == k) = none →
      resolve_search_strategy g (StrategyArg.key k) =
        Except.error (Err.unknownStrategyError (unknownKeyMsg k))) ∧
    (∀ v, g.defaultStrategyKey = some dk → dk ≠ "" →
      g.searchStrategies.find? (fun kv => kv.1 == dk) = some v →
      resolve_search_strategy g StrategyArg.noArg = Except.ok v.2) ∧
    ((g.defaultStrategyKey = none ∨ g.defaultStrategyKey = some "" ∨
      (g.defaultStrategyKey = some dk ∧
        g.searchStrategies.find? (fun kv => kv.1 == dk) = none)) →
      resolve_search_strategy g StrategyArg.noArg = resolveFallback g) ∧
    (∀ kv rest, g.searchStrategies = kv :: rest → resolveFallback g = Except.ok kv.2) ∧
    (g.searchStrategies = [] →
      resolve_search_strategy g StrategyArg.noArg =
        Except.error (Err.unknownStrategyError noStrategiesMsg)) ∧
    unknownKeyMsg k ≠ noStrategiesMsg := by
  refine ⟨rfl, ?_, ?_, ?_, ?_, ?_, ?_, ?_⟩
  · intro v hv; simp [resolve_search_strategy, hv]
  · intro hnone; simp [resolve_search_strategy, hnone]
  · intro v hdk hne hfind; simp [resolve_search_strategy, hdk, hne, hfind]
  · intro hcase
    rcases hcase with hnone | hempty | ⟨hdk, hfind⟩
    · simp [resolve_search_strategy, hnone]
    · simp [resolve_search_strategy, hempty]
    · by_cases hdk0 : dk = ""
      · simp [resolve_search_strategy, hdk, hdk0]
      · simp [resolve_search_strategy, hdk, hdk0, hfind]
  · intro kv rest hreg; simp [resolveFallback, hreg]
  · intro hreg
    cases hdef : g.defaultStrategyKey with
    | none => simp [resolve_search_strategy, hdef, resolveFallback, hreg]
    | some dk' =>
        by_cases hdk0 : dk' = ""
        · simp [resolve_search_strategy, hdef, hdk0, resolveFallback, hreg]
        · simp [resolve_search_strategy, hdef, hdk0, resolveFallback, hreg]
  · intro h
    have h2 : (unknownKeyMsg k).data.head? = noStrategiesMsg.data.head? := by rw [h]
    have e1 : (unknownKeyMsg k).data.head? = some 'S' := rfl
    have e2 : noStrategiesMsg.data.head? = some 'N' := rfl
    rw [e1, e2] at h2
    exact absurd (Option.some.inj h2) (by decide)

/-- A freshly constructed graph used by the C5 witness. -/
def gFresh : Graph := mkGraph 0 GraphKind.base "gw"

/-- Witness for C5 at concrete inputs: the unregistered-key failure on a
fresh graph, the no-strategies failure after unregistering the only
strategy, and their messages differing. -/
theorem c5_strategy_resolution_spec_witness :
    resolve_search_strategy gFresh (StrategyArg.key "nope") =
      Except.error (Err.unknownStrategyError (unknownKeyMsg "nope")) ∧
    resolve_search_strategy (unregister_search_strategy gFresh "regex") StrategyArg.noArg =
      Except.error (Err.unknownStrategyError noStrategiesMsg) ∧
    unknownKeyMsg "nope" ≠ noStrategiesMsg :=
  ⟨(c5_strategy_resolution_spec gFresh regexDefaultStrategy "nope" "x").2.2.1 (by decide),
   (c5_strategy_resolution_spec (unregister_search_strategy gFresh "regex")
      regexDefaultStrategy "nope" "x").2.2.2.2.2.2.1 (by decide),
   (c5_strategy_resolution_spec gFresh regexDefaultStrategy "nope" "x").2.2.2.2.2.2.2⟩

end GraphPy

namespace GraphPy

/-- One edge connecting `{A, B}` with id `d1`, injected at construction. -/
def dup1 : Edge := { id := "d1", source := "A", target := "B" }

/-- A second, distinct-id edge connecting the same pair, also injected. -/
def dup2 : Edge := { id := "d2", source := "A", target := "B" }

/-- An `UndirectedGraph` constructed with two stored edges already
connecting `{A, B}` (the pydantic constructor accepts any edge list and
`__init__` does not deduplicate). -/
def gC7 : Graph := mkGraph 40 GraphKind.undirected "g7" none [] [dup1, dup2]

/-- C7 counterexample: on this UndirectedGraph, calling `add_edge (A,B)`
and then `add_edge (B,A)` leaves TWO stored edges connecting the unordered
pair `{A, B}`, not exactly one: both calls are skipped by the dedup check
and the pre-existing duplicates remain. -/
theorem c7_preexisting_duplicate_edges :
    ((add_edge (add_edge gC7 { id := "x1", source := "A", target := "B" })
      { id := "x2", source := "B", target := "A" }).edges.countP
        (fun e => connectsPair e "A" "B")) = 2 := by
  decide

/-- The unordered-pair predicate is symmetric in its two ids. -/
theorem connectsPair_symm (e : Edge) (a b : String) :
    connectsPair e a b = connectsPair e b a := by
  unfold connectsPair
  exact Bool.or_comm _ _

/-- C7 as amended: `UndirectedGraph.add_edge` appends exactly when no
stored edge connects the new edge's unordered pair; consequently, starting
from a graph storing at most one edge connecting `{a, b}` (always true
after populating through `add_edge`), adding `(a, b)` and then `(b, a)`
leaves exactly one stored edge connecting the pair. -/
theorem c7_undirected_add_edge_symmetric_dedup (g : Graph) (a b : String) (e1 e2 : Edge)
    (hkind : g.kind = GraphKind.undirected)
    (h1s : e1.source = a) (h1t : e1.target = b) (h2s : e2.source = b) (h2t : e2.target = a)
    (hcount : g.edges.countP (fun e => connectsPair e a b) ≤ 1) :
    ((add_edge (add_edge g e1) e2).edges.countP (fun e => connectsPair e a b)) = 1 ∧
    (∀ e, (add_edge g e).edges =
      if g.edges.any (fun e0 => connectsPair e0 e.source e.target) then g.edges
      else g.edges ++ [e]) := by
  constructor
  · by_cases h0 : g.edges.any (fun e0 => connectsPair e0 a b) = true
    · have hpos : 0 < g.edges.countP (fun e => connectsPair e a b) := by
        rw [List.countP_pos_iff]
        simpa using List.any_eq_true.mp h0
      have hc1 : g.edges.countP (fun e => connectsPair e a b) = 1 :=
        le_antisymm hcount hpos
      have step1 : add_edge g e1 = g := by
        simp [add_edge, hkind, h1s, h1t, h0]
      have step2 : add_edge g e2 = g := by
        have h0' : g.edges.any (fun e0 => connectsPair e0 b a) = true := by
          have := fun e0 => connectsPair_symm e0 a b
          simpa [this] using h0
        simp [add_edge, hkind, h2s, h2t, h0']
      rw [step1, step2, hc1]
    · have step1 : add_edge g e1 = { g with edges := g.edges ++ [e1] } := by
        simp [add_edge, hkind, h1s, h1t, h0]
      have he1 : connectsPair e1 b a = true := by
        simp [connectsPair, h1s, h1t]
      have h0' : (g.edges ++ [e1]).any (fun e0 => connectsPair e0 b a) = true := by
        rw [List.any_append]
        simp [he1]
      have step2 : add_edge { g with edges := g.edges ++ [e1] } e2 =
          { g with edges := g.edges ++ [e1] } := by
        simp [add_edge, hkind, h2s, h2t, h0']
      have hzero : g.edges.countP (fun e => connectsPair e a b) = 0 := by
        rw [List.countP_eq_zero]
        intro e he
        by_contra hce
        exact h0 (List.any_eq_true.mpr ⟨e, he, by simpa using hce⟩)
      have he1' : connectsPair e1 a b = true := by
        simp [connectsPair, h1s, h1t]
      rw [step1, step2]
      show (g.edges ++ [e1]).countP (fun e => connectsPair e a b) = 1
      rw [List.countP_append, hzero]
      simp [List.countP_cons, he1']
  · intro e
    by_cases hc : g.edges.any (fun e0 => connectsPair e0 e.source e.target) = true
    · simp [add_edge, hkind, hc]
    · simp [add_edge, hkind, hc]

/-- Witness for the amended C7 on the empty UndirectedGraph. -/
theorem c7_undirected_add_edge_symmetric_dedup_witness :
    ((add_edge (add_edge (mkGraph 90 GraphKind.undirected "gu")
        { id := "x1", source := "A", target := "B" })
        { id := "x2", source := "B", target := "A" }).edges.countP
      (fun e => connectsPair e "A" "B")) = 1 :=
  (c7_undirected_add_edge_symmetric_dedup (mkGraph 90 GraphKind.undirected "gu")
    "A" "B" { id := "x1", source := "A", target := "B" }
    { id := "x2", source := "B", target := "A" }
    rfl rfl rfl rfl rfl (by decide)).1

end GraphPy

namespace GraphPy

/-- A successful `adj[k].append(v)` leaves the dict keys unchanged. -/
theorem adjAppend_ok_keys : ∀ (adj adj' : List (String × List String)) (k v : String),
    adjAppend adj k v = Except.ok adj' → adj'.map Prod.fst = adj.map Prod.fst := by
  intro adj
  induction adj with
  | nil => intro adj' k v h; simp [adjAppend] at h
  | cons kv rest ih =>
      intro adj' k v h
      rw [adjAppend] at h
      by_cases hk : kv.1 == k
      · rw [if_pos hk] at h
        cases h
        simp
      · rw [if_neg hk] at h
        cases hrec : adjAppend rest k v with
        | error e => rw [hrec] at h; cases h
        | ok rest' =>
            rw [hrec] at h
            cases h
            simp [ih rest' k v hrec]

/-- `adj[k].append(v)` succeeds exactly on present keys. -/
theorem adjAppend_mem_ok : ∀ (adj : List (String × List String)) (k v : String),
    k ∈ adj.map Prod.fst → ∃ adj', adjAppend adj k v = Except.ok adj' := by
  intro adj
  induction adj with
  | nil => intro k v h; simp at h
  | cons kv rest ih =>
      intro k v h
      rw [adjAppend]
      by_cases hk : kv.1 == k
      · exact ⟨_, by rw [if_pos hk]⟩
      · rw [if_neg hk]
        have hmem : k ∈ rest.map Prod.fst := by
          rw [List.map_cons, List.mem_cons] at h
          rcases h with heq | hm
          · exact absurd (by simp [heq]) hk
          · exact hm
        obtain ⟨rest', hrest⟩ := ih k v hmem
        exact ⟨_, by rw [hrest]⟩

/-- `adj[k].append(v)` raises `KeyError` on a missing key. -/
theorem adjAppend_not_mem : ∀ (adj : List (String × List String)) (k v : String),
    k ∉ adj.map Prod.fst → adjAppend adj k v = Except.error Err.keyError := by
  intro adj
  induction adj with
  | nil => intro k v _; rfl
  | cons kv rest ih =>
      intro k v h
      have hk : (kv.1 == k) = false := by
        simp only [List.map_cons, List.mem_cons] at h
        simp [beq_eq_false_iff_ne]
        intro he
        exact h (Or.inl he.symm)
      rw [adjAppend, if_neg (by simp [hk]), ih k v (fun hm => h (by simp [hm]))]

/-- The only error `adjAppend` produces is `KeyError`. -/
theorem adjAppend_error : ∀ (adj : List (String × List String)) (k v : String) (e : Err),
    adjAppend adj k v = Except.error e → e = Err.keyError := by
  intro adj
  induction adj with
  | nil => intro k v e h; rw [adjAppend] at h; cases h; rfl
  | cons kv rest ih =>
      intro k v e h
      rw [adjAppend] at h
      by_cases hk : kv.1 == k
      · rw [if_pos hk] at h; cases h
      · rw [if_neg hk] at h
        cases hrec : adjAppend rest k v with
        | error e' => rw [hrec] at h; cases h; exact ih k v e hrec
        | ok rest' => rw [hrec] at h; cases h

/-- A successful bidirectional step preserves the keys. -/
theorem adjStepBoth_ok_keys (adj adj' : List (String × List String)) (e : Edge)
    (h : adjStepBoth adj e = Except.ok adj') :
    adj'.map Prod.fst = adj.map Prod.fst := by
  rw [adjStepBoth] at h
  cases h1 : adjAppend adj e.source e.target with
  | error err => rw [h1] at h; cases h
  | ok adj1 =>
      rw [h1] at h
      exact (adjAppend_ok_keys adj1 adj' e.target e.source h).trans
        (adjAppend_ok_keys adj adj1 e.source e.target h1)

/-- A successful directed step preserves the keys. -/
theorem adjStepDir_ok_keys (adj adj' : List (String × List String)) (e : Edge)
    (h : adjStepDir adj e = Except.ok adj') :
    adj'.map Prod.fst = adj.map Prod.fst :=
  adjAppend_ok_keys adj adj' e.source e.target h

/-- A bidirectional step succeeds when both endpoints are keys. -/
theorem adjStepBoth_good (adj : List (String × List String)) (e : Edge)
    (hs : e.source ∈ adj.map Prod.fst) (ht : e.target ∈ adj.map Prod.fst) :
    ∃ adj', adjStepBoth adj e = Except.ok adj' := by
  obtain ⟨adj1, h1⟩ := adjAppend_mem_ok adj e.source e.target hs
  obtain ⟨adj2, h2⟩ := adjAppend_mem_ok adj1 e.target e.source
    (by rw [adjAppend_ok_keys adj adj1 _ _ h1]; exact ht)
  refine ⟨adj2, ?_⟩
  rw [adjStepBoth, h1]
  exact h2

/-- A bidirectional step on an edge with a dangling endpoint raises
`KeyError`. -/
theorem adjStepBoth_bad (adj : List (String × List String)) (e : Edge)
    (h : e.source ∉ adj.map Prod.fst ∨ e.target ∉ adj.map Prod.fst) :
    adjStepBoth adj e = Except.error Err.keyError := by
  rcases h with hs | ht
  · rw [adjStepBoth, adjAppend_not_mem adj e.source e.target hs]
  · cases h1 : adjAppend adj e.source e.target with
    | error err =>
        rw [adjStepBoth, h1, adjAppend_error adj e.source e.target err h1]
    | ok adj1 =>
        have hkeys := adjAppend_ok_keys adj adj1 e.source e.target h1
        rw [adjStepBoth, h1]
        exact adjAppend_not_mem adj1 e.target e.source (by rw [hkeys]; exact ht)

/-- A successful fold of bidirectional steps preserves the keys. -/
theorem adjFold_both_ok_keys : ∀ (es : List Edge) (adj adj' : List (String × List String)),
    adjFold adjStepBoth adj es = Except.ok adj' → adj'.map Prod.fst = adj.map Prod.fst := by
  intro es
  induction es with
  | nil => intro adj adj' h; rw [adjFold] at h; cases h; rfl
  | cons e rest ih =>
      intro adj adj' h
      rw [adjFold] at h
      cases h1 : adjStepBoth adj e with
      | error err => rw [h1] at h; cases h
      | ok adj1 =>
          rw [h1] at h
          exact (ih adj1 adj' h).trans (adjStepBoth_ok_keys adj adj1 e h1)

/-- A successful fold of directed steps preserves the keys. -/
theorem adjFold_dir_ok_keys : ∀ (es : List Edge) (adj adj' : List (String × List String)),
    adjFold adjStepDir adj es = Except.ok adj' → adj'.map Prod.fst = adj.map Prod.fst := by
  intro es
  induction es with
  | nil => intro adj adj' h; rw [adjFold] at h; cases h; rfl
  | cons e rest ih =>
      intro adj adj' h
      rw [adjFold] at h
      cases h1 : adjStepDir adj e with
      | error err => rw [h1] at h; cases h
      | ok adj1 =>
          rw [h1] at h
          exact (ih adj1 adj' h).trans (adjStepDir_ok_keys adj adj1 e h1)

/-- A fold of bidirectional steps over a list containing an edge with a
dangling endpoint raises `KeyError`. -/
theorem adjFold_both_bad : ∀ (es : List Edge) (adj : List (String × List String)),
    (∃ e ∈ es, e.source ∉ adj.map Prod.fst ∨ e.target ∉ adj.map Prod.fst) →
    adjFold adjStepBoth adj es = Except.error Err.keyError := by
  intro es
  induction es with
  | nil => intro adj h; simp at h
  | cons e rest ih =>
      intro adj h
      rw [adjFold]
      by_cases hbad : e.source ∉ adj.map Prod.fst ∨ e.target ∉ adj.map Prod.fst
      · rw [adjStepBoth_bad adj e hbad]
      · push_neg at hbad
        obtain ⟨e0, he0, hb0⟩ := h
        have he0' : e0 ∈ rest := by
          rcases List.mem_cons.mp he0 with heq | hm
          · subst heq
            rcases hb0 with h1 | h1
            · exact absurd hbad.1 h1
            · exact absurd hbad.2 h1
          · exact hm
        obtain ⟨adj1, h1⟩ := adjStepBoth_good adj e hbad.1 hbad.2
        rw [h1]
        have hkeys := adjStepBoth_ok_keys adj adj1 e h1
        exact ih adj1 ⟨e0, he0', by rw [hkeys]; exact hb0⟩

/-- Membership in the deduplicated id list. -/
theorem uniqueIds_mem : ∀ (l : List Node) (seen : List String) (i : String),
    i ∈ uniqueIds l seen ↔ (i ∈ l.map Node.id ∧ i ∉ seen) := by
  intro l
  induction l with
  | nil => intro seen i; simp [uniqueIds]
  | cons n ns ih =>
      intro seen i
      rw [uniqueIds]
      by_cases hn : n.id ∈ seen
      · rw [if_pos hn, ih, List.map_cons]
        constructor
        · rintro ⟨hm, hs⟩
          exact ⟨List.mem_cons.mpr (Or.inr hm), hs⟩
        · rintro ⟨hm, hs⟩
          rcases List.mem_cons.mp hm with heq | hm2
          · exact absurd (by rw [heq]; exact hn) hs
          · exact ⟨hm2, hs⟩
      · rw [if_neg hn, List.map_cons]
        constructor
        · intro hmem
          rcases List.mem_cons.mp hmem with heq | hm
          · subst heq
            exact ⟨List.mem_cons.mpr (Or.inl rfl), hn⟩
          · obtain ⟨hm2, hs2⟩ := (ih (n.id :: seen) i).mp hm
            exact ⟨List.mem_cons.mpr (Or.inr hm2),
              fun hc => hs2 (List.mem_cons.mpr (Or.inr hc))⟩
        · rintro ⟨hm, hs⟩
          rcases List.mem_cons.mp hm with heq | hm2
          · exact List.mem_cons.mpr (Or.inl heq)
          · by_cases hni : i = n.id
            · exact List.mem_cons.mpr (Or.inl hni)
            · refine List.mem_cons.mpr (Or.inr ((ih (n.id :: seen) i).mpr ⟨hm2, ?_⟩))
              intro hc
              rcases List.mem_cons.mp hc with h3 | h3
              · exact hni h3
              · exact hs h3

/-- The keys of the initial adjacency dict are the deduplicated node
ids. -/
theorem adjInit_keys (g : Graph) : (adjInit g).map Prod.fst = uniqueIds g.nodes [] := by
  rw [adjInit, List.map_map]
  exact List.map_id _

/-- A computed adjacency dict has the deduplicated node ids as keys,
whatever the graph class. -/
theorem adjacency_ok_keys (g : Graph) (adj : List (String × List String))
    (h : adjacency g = Except.ok adj) :
    adj.map Prod.fst = uniqueIds g.nodes [] := by
  rw [adjacency] at h
  rcases hk : g.kind with hb | hd | hu <;> rw [hk] at h
  · exact (adjFold_both_ok_keys g.edges (adjInit g) adj h).trans (adjInit_keys g)
  · exact (adjFold_dir_ok_keys g.edges (adjInit g) adj h).trans (adjInit_keys g)
  · exact (adjFold_both_ok_keys g.edges (adjInit g) adj h).trans (adjInit_keys g)

/-- C10: a base Graph holding an edge with an endpoint that is no node id
(which `add_edge` happily stores) raises `KeyError` from the adjacency
property instead of returning a mapping; consequently every algorithm
consuming the adjacency view — all four do, on any call that reaches it
(members, distinct ids) — fails with that `KeyError`. -/
theorem c10_dangling_edge_adjacency_key_error (g : Graph) (src trg : Node)
    (hkind : g.kind = GraphKind.base)
    (hdangle : ∃ e ∈ g.edges,
      e.source ∉ g.nodes.map Node.id ∨ e.target ∉ g.nodes.map Node.id) :
    adjacency g = Except.error Err.keyError ∧
    (memberCheck g src trg = true → src.id ≠ trg.id →
      bfs g src trg = Except.error Err.keyError ∧
      dfs g src trg = Except.error Err.keyError ∧
      dijkstra g src trg = Except.error Err.keyError ∧
      bellman_ford g src trg = Except.error Err.keyError) := by
  have hadj : adjacency g = Except.error Err.keyError := by
    rw [adjacency, hkind]
    apply adjFold_both_bad
    obtain ⟨e, he, hb⟩ := hdangle
    refine ⟨e, he, ?_⟩
    rw [adjInit_keys]
    have : ∀ i, i ∈ uniqueIds g.nodes [] ↔ i ∈ g.nodes.map Node.id := by
      intro i
      rw [uniqueIds_mem]
      simp
    rcases hb with h1 | h1
    · exact Or.inl (fun hc => h1 ((this e.source).mp hc))
    · exact Or.inr (fun hc => h1 ((this e.target).mp hc))
  refine ⟨hadj, fun hmem hne => ⟨?_, ?_, ?_, ?_⟩⟩
  · simp [bfs, bfsRun, hmem, hne, hadj]
  · simp [dfs, hmem, hne, hadj]
  · simp [dijkstra, hmem, hne, hadj]
  · simp [bellman_ford, hmem, hne, hadj]

/-- The dangling-edge scenario graph: members `A` (address 1) and `C`
(address 7), plus an edge `A → X` whose target is no node. -/
def gDangle : Graph :=
  add_edge (add_node (add_node (mkGraph 70 GraphKind.base "g4") nodeA0)
    { ref := 7, id := "C" }) { id := "e1", source := "A", target := "X" }

/-- Node `A` as stored in `gDangle`. -/
def gDangleA : Node := { nodeA0 with graphRef := some 70 }

/-- Node `C` as stored in `gDangle`. -/
def gDangleC : Node := { ref := 7, id := "C", graphRef := some 70 }

/-- Witness for C10 at the concrete dangling-edge graph. -/
theorem c10_dangling_edge_adjacency_key_error_witness :
    adjacency gDangle = Except.error Err.keyError ∧
    bfs gDangle gDangleA gDangleC = Except.error Err.keyError :=
  ⟨(c10_dangling_edge_adjacency_key_error gDangle gDangleA gDangleC rfl
      ⟨{ id := "e1", source := "A", target := "X" }, by decide, Or.inr (by decide)⟩).1,
   ((c10_dangling_edge_adjacency_key_error gDangle gDangleA gDangleC rfl
      ⟨{ id := "e1", source := "A", target := "X" }, by decide, Or.inr (by decide)⟩).2
     (by decide) (by decide)).1⟩

end GraphPy

namespace GraphPy

/-- Membership of an id among the id-deduplicated cloned nodes. -/
theorem dedupNodes_mem_ids : ∀ (l : List Node) (seen : List String) (i : String),
    i ∈ (dedupNodesById seen l).map Node.id ↔ (i ∈ l.map Node.id ∧ i ∉ seen) := by
  intro l
  induction l with
  | nil => intro seen i; simp [dedupNodesById]
  | cons n ns ih =>
      intro seen i
      rw [dedupNodesById]
      by_cases hn : n.id ∈ seen
      · rw [if_pos hn, ih, List.map_cons]
        constructor
        · rintro ⟨hm, hs⟩
          exact ⟨List.mem_cons.mpr (Or.inr hm), hs⟩
        · rintro ⟨hm, hs⟩
          rcases List.mem_cons.mp hm with heq | hm2
          · exact absurd (by rw [heq]; exact hn) hs
          · exact ⟨hm2, hs⟩
      · rw [if_neg hn, List.map_cons, List.map_cons]
        constructor
        · intro hmem
          rcases List.mem_cons.mp hmem with heq | hm
          · rw [heq]
            exact ⟨List.mem_cons.mpr (Or.inl rfl), hn⟩
          · obtain ⟨hm2, hs2⟩ := (ih (n.id :: seen) i).mp hm
            exact ⟨List.mem_cons.mpr (Or.inr hm2),
              fun hc => hs2 (List.mem_cons.mpr (Or.inr hc))⟩
        · rintro ⟨hm, hs⟩
          rcases List.mem_cons.mp hm with heq | hm2
          · exact List.mem_cons.mpr (Or.inl heq)
          · by_cases hni : i = n.id
            · exact List.mem_cons.mpr (Or.inl hni)
            · refine List.mem_cons.mpr (Or.inr ((ih (n.id :: seen) i).mpr ⟨hm2, ?_⟩))
              intro hc
              rcases List.mem_cons.mp hc with h3 | h3
              · exact hni h3
              · exact hs h3

/-- Membership of an id among the id-deduplicated cloned edges. -/
theorem dedupEdges_mem_ids : ∀ (l : List Edge) (seen : List String) (i : String),
    i ∈ (dedupEdgesById seen l).map Edge.id ↔ (i ∈ l.map Edge.id ∧ i ∉ seen) := by
  intro l
  induction l with
  | nil => intro seen i; simp [dedupEdgesById]
  | cons e es ih =>
      intro seen i
      rw [dedupEdgesById]
      by_cases he : e.id ∈ seen
      · rw [if_pos he, ih, List.map_cons]
        constructor
        · rintro ⟨hm, hs⟩
          exact ⟨List.mem_cons.mpr (Or.inr hm), hs⟩
        · rintro ⟨hm, hs⟩
          rcases List.mem_cons.mp hm with heq | hm2
          · exact absurd (by rw [heq]; exact he) hs
          · exact ⟨hm2, hs⟩
      · rw [if_neg he, List.map_cons, List.map_cons]
        constructor
        · intro hmem
          rcases List.mem_cons.mp hmem with heq | hm
          · rw [heq]
            exact ⟨List.mem_cons.mpr (Or.inl rfl), he⟩
          · obtain ⟨hm2, hs2⟩ := (ih (e.id :: seen) i).mp hm
            exact ⟨List.mem_cons.mpr (Or.inr hm2),
              fun hc => hs2 (List.mem_cons.mpr (Or.inr hc))⟩
        · rintro ⟨hm, hs⟩
          rcases List.mem_cons.mp hm with heq | hm2
          · exact List.mem_cons.mpr (Or.inl heq)
          · by_cases hei : i = e.id
            · exact List.mem_cons.mpr (Or.inl hei)
            · refine List.mem_cons.mpr (Or.inr ((ih (e.id :: seen) i).mpr ⟨hm2, ?_⟩))
              intro hc
              rcases List.mem_cons.mp hc with h3 | h3
              · exact hei h3
              · exact hs h3

/-- Every deduplicated edge is one of the original edges (edge clones are
value-identical). -/
theorem dedupEdges_sub : ∀ (l : List Edge) (seen : List String) (e : Edge),
    e ∈ dedupEdgesById seen l → e ∈ l := by
  intro l
  induction l with
  | nil => intro seen e h; simp [dedupEdgesById] at h
  | cons e0 es ih =>
      intro seen e h
      rw [dedupEdgesById] at h
      by_cases he : e0.id ∈ seen
      · rw [if_pos he] at h
        exact List.mem_cons.mpr (Or.inr (ih seen e h))
      · rw [if_neg he] at h
        rcases List.mem_cons.mp h with heq | hm
        · exact List.mem_cons.mpr (Or.inl heq)
        · exact List.mem_cons.mpr (Or.inr (ih (e0.id :: seen) e hm))

/-- The deduplicated edges have pairwise distinct ids. -/
theorem dedupEdges_nodup : ∀ (l : List Edge) (seen : List String),
    ((dedupEdgesById seen l).map Edge.id).Nodup := by
  intro l
  induction l with
  | nil => intro seen; simp [dedupEdgesById]
  | cons e es ih =>
      intro seen
      rw [dedupEdgesById]
      by_cases he : e.id ∈ seen
      · rw [if_pos he]
        exact ih seen
      · rw [if_neg he, List.map_cons, List.nodup_cons]
        refine ⟨?_, ih (e.id :: seen)⟩
        intro hc
        have := ((dedupEdges_mem_ids es (e.id :: seen) e.id).mp hc).2
        exact this (List.mem_cons.mpr (Or.inl rfl))

/-- `add_edge` touches only the edge list. -/
theorem add_edge_same (g : Graph) (e : Edge) :
    (add_edge g e).nodes = g.nodes ∧ (add_edge g e).kind = g.kind ∧
      (add_edge g e).ref = g.ref := by
  obtain ⟨r, k, gid, nm, ns, es, ss, dk⟩ := g
  cases k with
  | undirected =>
      rw [add_edge]
      by_cases hc : es.any (fun e0 => connectsPair e0 e.source e.target) = true
      · rw [if_pos hc]
        exact ⟨rfl, rfl, rfl⟩
      · rw [if_neg hc]
        exact ⟨rfl, rfl, rfl⟩
  | base => exact ⟨rfl, rfl, rfl⟩
  | directed => exact ⟨rfl, rfl, rfl⟩

/-- On a non-undirected graph `add_edge` appends unconditionally. -/
theorem add_edge_edges_nonund (g : Graph) (e : Edge)
    (h : g.kind ≠ GraphKind.undirected) :
    (add_edge g e).edges = g.edges ++ [e] := by
  rw [add_edge]
  cases hk : g.kind with
  | undirected => exact absurd hk h
  | base => rfl
  | directed => rfl

/-- The node-insertion fold of `_build_graph`. -/
theorem foldl_add_node_fields : ∀ (ns : List Node) (g : Graph),
    (ns.foldl add_node g).nodes =
      g.nodes ++ ns.map (fun n => { n with graphRef := some g.ref }) ∧
    (ns.foldl add_node g).edges = g.edges ∧
    (ns.foldl add_node g).kind = g.kind ∧
    (ns.foldl add_node g).ref = g.ref := by
  intro ns
  induction ns with
  | nil => intro g; simp
  | cons n rest ih =>
      intro g
      rw [List.foldl_cons]
      obtain ⟨h1, h2, h3, h4⟩ := ih (add_node g n)
      refine ⟨?_, h2, h3, h4⟩
      rw [h1]
      show (g.nodes ++ [{ n with graphRef := some g.ref }]) ++ _ = _
      rw [List.append_assoc, List.map_cons]
      rfl

/-- `buildGraphEdges` touches only the edge list. -/
theorem buildGraphEdges_same : ∀ (es : List Edge) (g : Graph),
    (buildGraphEdges g es).nodes = g.nodes ∧ (buildGraphEdges g es).kind = g.kind := by
  intro es
  induction es with
  | nil => intro g; exact ⟨rfl, rfl⟩
  | cons e rest ih =>
      intro g
      rw [buildGraphEdges]
      by_cases hc : ((get_node g e.source).isSome && (get_node g e.target).isSome) = true
      · rw [if_pos hc]
        obtain ⟨h1, h2⟩ := ih (add_edge g e)
        obtain ⟨g1, g2, _⟩ := add_edge_same g e
        exact ⟨h1.trans g1, h2.trans g2⟩
      · rw [if_neg hc]
        exact ih g

/-- `get_node` succeeds exactly on stored node ids. -/
theorem get_node_isSome (g : Graph) (i : String) :
    (get_node g i).isSome ↔ i ∈ g.nodes.map Node.id := by
  rw [get_node, List.find?_isSome]
  constructor
  · rintro ⟨n, hn, hp⟩
    exact List.mem_map.mpr ⟨n, hn, by simpa using hp⟩
  · intro h
    obtain ⟨n, hn, hid⟩ := List.mem_map.mp h
    exact ⟨n, hn, by simp [hid]⟩

/-- With every endpoint resolvable and a non-undirected class, the edge
loop of `_build_graph` keeps every edge in order. -/
theorem buildGraphEdges_edges_nonund : ∀ (es : List Edge) (g : Graph),
    g.kind ≠ GraphKind.undirected →
    (∀ e ∈ es, e.source ∈ g.nodes.map Node.id ∧ e.target ∈ g.nodes.map Node.id) →
    (buildGraphEdges g es).edges = g.edges ++ es := by
  intro es
  induction es with
  | nil => intro g _ _; simp [buildGraphEdges]
  | cons e rest ih =>
      intro g hk hends
      have hcur := hends e (List.mem_cons.mpr (Or.inl rfl))
      rw [buildGraphEdges, if_pos (by
        rw [Bool.and_eq_true]
        exact ⟨(get_node_isSome g e.source).mpr hcur.1,
               (get_node_isSome g e.target).mpr hcur.2⟩)]
      obtain ⟨hnodes, hkind, _⟩ := add_edge_same g e
      rw [ih (add_edge g e) (by rw [hkind]; exact hk)
        (by intro e' he'; rw [hnodes]; exact hends e' (List.mem_cons.mpr (Or.inr he')))]
      rw [add_edge_edges_nonund g e hk, List.append_assoc]
      rfl

/-- With every endpoint resolvable, an undirected class, and no two edges
in the combined current-plus-pending list connecting the same unordered
pair, the edge loop keeps every edge in order. -/
theorem buildGraphEdges_edges_und : ∀ (es : List Edge) (g : Graph),
    g.kind = GraphKind.undirected →
    (∀ e ∈ es, e.source ∈ g.nodes.map Node.id ∧ e.target ∈ g.nodes.map Node.id) →
    List.Pairwise (fun a b => connectsPair a b.source b.target = false) (g.edges ++ es) →
    (buildGraphEdges g es).edges = g.edges ++ es := by
  intro es
  induction es with
  | nil => intro g _ _ _; simp [buildGraphEdges]
  | cons e rest ih =>
      intro g hk hends hpair
      have hcur := hends e (List.mem_cons.mpr (Or.inl rfl))
      rw [buildGraphEdges, if_pos (by
        rw [Bool.and_eq_true]
        exact ⟨(get_node_isSome g e.source).mpr hcur.1,
               (get_node_isSome g e.target).mpr hcur.2⟩)]
      have hprevfalse : ∀ a ∈ g.edges, connectsPair a e.source e.target = false := by
        intro a ha
        exact (List.pairwise_append.mp hpair).2.2 a ha e (List.mem_cons.mpr (Or.inl rfl))
      have hnoconn : g.edges.any (fun e0 => connectsPair e0 e.source e.target) = false := by
        rw [Bool.eq_false_iff]
        intro hc
        obtain ⟨a, ha, hpa⟩ := List.any_eq_true.mp hc
        rw [hprevfalse a ha] at hpa
        cases hpa
      have hstep : add_edge g e = { g with edges := g.edges ++ [e] } := by
        rw [add_edge]
        cases hk2 : g.kind with
        | undirected => rw [if_neg (by rw [hnoconn]; exact Bool.false_ne_true)]
        | base => exact absurd hk2 (by rw [hk]; intro hcon; cases hcon)
        | directed => exact absurd hk2 (by rw [hk]; intro hcon; cases hcon)
      rw [hstep]
      have hpair' : List.Pairwise (fun a b => connectsPair a b.source b.target = false)
          ((g.edges ++ [e]) ++ rest) := by
        rw [List.append_assoc]
        show List.Pairwise _ (g.edges ++ ([e] ++ rest))
        exact hpair
      rw [ih { g with edges := g.edges ++ [e] } hk
        (fun e' he' => hends e' (List.mem_cons.mpr (Or.inr he'))) hpair']
      rw [List.append_assoc]
      rfl

end GraphPy

namespace GraphPy

/-- The C8 counterexample graph: one node `A` and a stored dangling edge
`A → X` (which `add_edge` accepts without validation). -/
def gC8 : Graph :=
  add_edge (add_node (mkGraph 60 GraphKind.base "g8") nodeA0)
    { id := "e1", source := "A", target := "X" }

/-- C8 counterexample: `graph_union(G, G)` does not always preserve the
edge-id set — `_build_graph` silently drops the dangling edge, so the
union of `gC8` with itself has no edges at all while `gC8` has one.  (The
node-id set is preserved even here.) -/
theorem c8_union_self_drops_dangling_edge :
    gC8.edges.map Edge.id = ["e1"] ∧
    (graph_union gC8 gC8).edges.map Edge.id = [] ∧
    (∀ i, i ∈ (graph_union gC8 gC8).nodes.map Node.id ↔ i ∈ gC8.nodes.map Node.id) ∧
    ¬ (∀ i : String, i ∈ (graph_union gC8 gC8).edges.map Edge.id ↔
        i ∈ gC8.edges.map Edge.id) := by
  refine ⟨by decide, by decide, ?_, ?_⟩
  · rw [show (graph_union gC8 gC8).nodes.map Node.id = ["A"] from by decide,
       show gC8.nodes.map Node.id = ["A"] from by decide]
    exact fun i => Iff.rfl
  · intro hall
    have h := (hall "e1").mpr (by decide)
    rw [show (graph_union gC8 gC8).edges.map Edge.id = [] from by decide] at h
    exact absurd h (List.not_mem_nil _)

/-- C8 as amended: `graph_union(G, G)` always preserves the node-id set;
it preserves the edge-id set whenever every edge endpoint of `G` is a node
id of `G` and — for an `UndirectedGraph`, whose `add_edge` the rebuild
goes through — no two distinct stored edges connect the same unordered
pair (automatic for a graph populated through `add_edge`). -/
theorem c8_union_self_preserves_id_sets (g : Graph)
    (hwf : ∀ e ∈ g.edges, e.source ∈ g.nodes.map Node.id ∧ e.target ∈ g.nodes.map Node.id)
    (hund : g.kind = GraphKind.undirected →
      ∀ e1 ∈ g.edges, ∀ e2 ∈ g.edges, e1.id ≠ e2.id →
        connectsPair e1 e2.source e2.target = false) :
    (∀ i, i ∈ (graph_union g g).nodes.map Node.id ↔ i ∈ g.nodes.map Node.id) ∧
    (∀ i, i ∈ (graph_union g g).edges.map Edge.id ↔ i ∈ g.edges.map Edge.id) := by
  have hkind : resolve_graph_type g.kind g.kind = g.kind := by
    rw [resolve_graph_type, if_pos rfl]
  have hunion : graph_union g g =
      build_graph g.kind (g.id ++ "_union_" ++ g.id)
        (some ("Union(" ++ nameOrId g ++ ", " ++ nameOrId g ++ ")"))
        (dedupNodesById [] (g.nodes ++ g.nodes))
        (dedupEdgesById [] (g.edges ++ g.edges)) := by
    rw [graph_union, hkind]
  set NS := dedupNodesById [] (g.nodes ++ g.nodes) with hNS
  set ES := dedupEdgesById [] (g.edges ++ g.edges) with hES
  set g0 := mkGraph 0 g.kind (g.id ++ "_union_" ++ g.id)
    (some ("Union(" ++ nameOrId g ++ ", " ++ nameOrId g ++ ")")) [] [] with hg0
  have hg0nodes : g0.nodes = [] := rfl
  have hg0edges : g0.edges = [] := rfl
  have hg0kind : g0.kind = g.kind := rfl
  obtain ⟨hfn, hfe, hfk, _⟩ := foldl_add_node_fields NS g0
  set g1 := NS.foldl add_node g0 with hg1
  have hbuild : graph_union g g = buildGraphEdges g1 ES := by
    rw [hunion, build_graph]
  have hg1ids : g1.nodes.map Node.id = NS.map Node.id := by
    rw [hfn, hg0nodes, List.nil_append, List.map_map]
    rfl
  have hNSids : ∀ i, i ∈ NS.map Node.id ↔ i ∈ g.nodes.map Node.id := by
    intro i
    rw [hNS, dedupNodes_mem_ids]
    simp
  obtain ⟨hbn, hbk⟩ := buildGraphEdges_same ES g1
  constructor
  · intro i
    rw [hbuild, hbn, hg1ids]
    exact hNSids i
  · have hESends : ∀ e ∈ ES, e.source ∈ g1.nodes.map Node.id ∧
        e.target ∈ g1.nodes.map Node.id := by
      intro e he
      have hg : e ∈ g.edges := by
        have := dedupEdges_sub (g.edges ++ g.edges) [] e (hES ▸ he)
        rcases List.mem_append.mp this with h1 | h1 <;> exact h1
      obtain ⟨h1, h2⟩ := hwf e hg
      rw [hg1ids]
      exact ⟨(hNSids e.source).mpr h1, (hNSids e.target).mpr h2⟩
    have hESids : ∀ i, i ∈ ES.map Edge.id ↔ i ∈ g.edges.map Edge.id := by
      intro i
      rw [hES, dedupEdges_mem_ids]
      simp
    have hedges : (buildGraphEdges g1 ES).edges = g1.edges ++ ES := by
      by_cases hku : g.kind = GraphKind.undirected
      · have hpair : List.Pairwise
            (fun a b => connectsPair a b.source b.target = false) (g1.edges ++ ES) := by
          rw [hfe, hg0edges, List.nil_append]
          have hnd : (ES.map Edge.id).Nodup := hES ▸ dedupEdges_nodup (g.edges ++ g.edges) []
          have hpw : ES.Pairwise (fun a b => a.id ≠ b.id) := by
            rw [List.Nodup, List.pairwise_map] at hnd
            exact hnd
          refine List.Pairwise.imp_of_mem ?_ hpw
          intro a b ha hb hne
          have hga : a ∈ g.edges := by
            have := dedupEdges_sub (g.edges ++ g.edges) [] a (hES ▸ ha)
            rcases List.mem_append.mp this with h1 | h1 <;> exact h1
          have hgb : b ∈ g.edges := by
            have := dedupEdges_sub (g.edges ++ g.edges) [] b (hES ▸ hb)
            rcases List.mem_append.mp this with h1 | h1 <;> exact h1
          exact hund hku a hga b hgb hne
        exact buildGraphEdges_edges_und ES g1 (by rw [hfk, hg0kind]; exact hku) hESends hpair
      · exact buildGraphEdges_edges_nonund ES g1 (by rw [hfk, hg0kind]; exact hku) hESends
    intro i
    rw [hbuild, hedges, hfe, hg0edges, List.nil_append]
    exact hESids i

/-- Witness for the amended C8 on the concrete two-node graph `gC2`. -/
theorem c8_union_self_preserves_id_sets_witness :
    (∀ i, i ∈ (graph_union gC2 gC2).nodes.map Node.id ↔ i ∈ gC2.nodes.map Node.id) ∧
    (∀ i, i ∈ (graph_union gC2 gC2).edges.map Edge.id ↔ i ∈ gC2.edges.map Edge.id) :=
  c8_union_self_preserves_id_sets gC2 (by decide) (by decide)

end GraphPy

namespace GraphPy

/-- C4 counterexample: on a graph with a dangling edge (a graph the claim
quantifies over, with member source and target), `bfs` raises `KeyError`
while computing the adjacency view, so it neither returns a shortest path
nor the `None` absent result the claim promises when no path exists. -/
theorem c4_bfs_dangling_edge_key_error :
    bfs gDangle gDangleA gDangleC = Except.error Err.keyError ∧
    (∀ r : Option (List Node), bfs gDangle gDangleA gDangleC ≠ Except.ok r) := by
  have h : bfs gDangle gDangleA gDangleC = Except.error Err.keyError := by decide
  refine ⟨h, fun r hr => ?_⟩
  rw [h] at hr
  exact Except.noConfusion hr

/-- Paths through the adjacency view, built up from the source.  This is
the induction-friendly view of `IdPath`. -/
inductive PathTo (adjf : String → List String) (s : String) : String → List String → Prop where
  | refl : PathTo adjf s s [s]
  | step : ∀ {w x : String} {p : List String},
      PathTo adjf s w p → x ∈ adjf w → PathTo adjf s x (p ++ [x])

/-- A built path is nonempty. -/
theorem PathTo.ne_nil {adjf : String → List String} {s x : String} {p : List String}
    (h : PathTo adjf s x p) : p ≠ [] := by
  induction h with
  | refl => simp
  | step _ _ _ => simp

/-- A built path starts at the source. -/
theorem PathTo.head_eq {adjf : String → List String} {s x : String} {p : List String}
    (h : PathTo adjf s x p) : p.head? = some s := by
  induction h with
  | refl => rfl
  | step hw _ ih =>
      rename_i w x' p'
      rw [List.head?_append_of_ne_nil _ hw.ne_nil]
      exact ih

/-- A built path ends at its endpoint. -/
theorem PathTo.last_eq {adjf : String → List String} {s x : String} {p : List String}
    (h : PathTo adjf s x p) : p.getLast? = some x := by
  induction h with
  | refl => rfl
  | step _ _ _ => rw [List.getLast?_concat]

/-- A built path is an adjacency chain. -/
theorem PathTo.chain {adjf : String → List String} {s x : String} {p : List String}
    (h : PathTo adjf s x p) : p.Chain' (fun a b => b ∈ adjf a) := by
  induction h with
  | refl => simp
  | step hw hx ih =>
      rename_i w x' p'
      rw [List.chain'_append]
      refine ⟨ih, by simp, ?_⟩
      intro a ha b hb
      rw [hw.last_eq] at ha
      cases ha
      cases hb
      exact hx

/-- Built paths are exactly the `IdPath`s. -/
theorem pathTo_idPath {adjf : String → List String} {s x : String} {p : List String}
    (h : PathTo adjf s x p) : IdPath adjf s x p :=
  ⟨h.ne_nil, h.head_eq, h.last_eq, h.chain⟩

/-- Conversely, every `IdPath` arises as a built path. -/
theorem idPath_pathTo {adjf : String → List String} :
    ∀ (p : List String) (s x : String), IdPath adjf s x p → PathTo adjf s x p := by
  intro p
  induction p using List.reverseRecOn with
  | nil => intro s x h; exact absurd rfl h.1
  | append_singleton q a ih =>
      intro s x h
      obtain ⟨hne, hhead, hlast, hchain⟩ := h
      have hxa : x = a := by
        rw [List.getLast?_concat] at hlast
        exact (Option.some.inj hlast).symm
      rcases eq_or_ne q [] with hq | hqne
      · subst hq
        have hsa : s = a := by
          rw [List.nil_append] at hhead
          exact (Option.some.inj hhead).symm
        subst hxa
        subst hsa
        exact PathTo.refl
      · obtain ⟨hcq, _, hrel⟩ := List.chain'_append.mp hchain
        have hwlast : q.getLast? = some (q.getLast hqne) := List.getLast?_eq_getLast q hqne
        have hrel2 : a ∈ adjf (q.getLast hqne) :=
          hrel (q.getLast hqne) (by rw [hwlast]; rfl) a rfl
        have hqpath : IdPath adjf s (q.getLast hqne) q := by
          refine ⟨hqne, ?_, hwlast, hcq⟩
          rw [List.head?_append_of_ne_nil _ hqne] at hhead
          exact hhead
        rw [hxa]
        exact (ih s (q.getLast hqne) hqpath).step hrel2

/-- Along a built path whose endpoint has a successor, every element has a
nonempty adjacency list (used to resolve every path id to a node). -/
theorem pathTo_elem_adj {adjf : String → List String} {s x : String} {p : List String}
    (h : PathTo adjf s x p) :
    ∀ y, y ∈ adjf x → ∀ i ∈ p, adjf i ≠ [] := by
  induction h with
  | refl =>
      intro y hy i hi
      rcases List.mem_singleton.mp hi with rfl
      intro hc
      rw [hc] at hy
      exact absurd hy (List.not_mem_nil _)
  | step hw hx ih =>
      rename_i w x' p'
      intro y hy i hi
      rcases List.mem_append.mp hi with hip | hix
      · exact ih x' hx i hip
      · rcases List.mem_singleton.mp hix with rfl
        intro hc
        rw [hc] at hy
        exact absurd hy (List.not_mem_nil _)

/-- The frontier bound: while the target of any path is undiscovered, some
queue entry is at least one step shorter than that path.  This is what
makes queue paths shortest and the final visited set complete. -/
theorem bfs_frontier {adjf : String → List String} {s : String}
    {q : List (String × List String)} {vis : List String}
    (hshort : ∀ e ∈ q, ∀ p, IdPath adjf s e.1 p → e.2.length ≤ p.length)
    (hproc : ∀ v ∈ vis, (∀ e ∈ q, e.1 ≠ v) → ∀ y ∈ adjf v, y ∈ vis)
    (hs : s ∈ vis) :
    ∀ {p : List String} {x : String}, PathTo adjf s x p → x ∉ vis →
      ∃ e ∈ q, e.2.length + 1 ≤ p.length := by
  intro p x hp
  induction hp with
  | refl => intro hx; exact absurd hs hx
  | step hw hadj ih =>
      rename_i w x' p'
      intro hxvis
      by_cases hwvis : w ∈ vis
      · by_cases hq : ∃ e ∈ q, e.1 = w
        · obtain ⟨e, heq, hew⟩ := hq
          refine ⟨e, heq, ?_⟩
          have hle : e.2.length ≤ p'.length := by
            refine hshort e heq p' ?_
            rw [hew]
            exact pathTo_idPath hw
          rw [List.length_append]
          simpa using Nat.add_le_add_right hle 1
        · push_neg at hq
          exact absurd (hproc w hwvis hq x' hadj) hxvis
      · obtain ⟨e, heq, hlen⟩ := ih hwvis
        refine ⟨e, heq, ?_⟩
        rw [List.length_append]
        simp only [List.length_singleton]
        omega

end GraphPy

namespace GraphPy

/-- What a neighbor scan that finishes without meeting the target did:
some duplicate-free list of fresh non-target neighbors was marked visited
(newest first), logged in order, and enqueued with its extended paths. -/
theorem bfsScan_cont_spec {trgId : String} {path : List String} :
    ∀ (ns vis acc log : List String) (accq : List (String × List String))
      (vis' log' : List String) (entries : List (String × List String)),
      bfsScan trgId path ns vis accq log = BfsScan.cont vis' entries log' →
      accq = acc.map (fun y => (y, path ++ [y])) →
      ∃ fresh : List String,
        entries = (acc ++ fresh).map (fun y => (y, path ++ [y])) ∧
        log' = log ++ fresh ∧
        vis' = fresh.reverse ++ vis ∧
        fresh.Nodup ∧
        (∀ y ∈ fresh, y ∈ ns ∧ y ∉ vis ∧ y ≠ trgId) ∧
        (∀ y ∈ ns, y ∈ vis') := by
  intro ns
  induction ns with
  | nil =>
      intro vis acc log accq vis' log' entries h hacc
      rw [bfsScan] at h
      cases h
      refine ⟨[], by simpa using hacc, by simp, by simp, by simp, by simp, by simp⟩
  | cons y ys ih =>
      intro vis acc log accq vis' log' entries h hacc
      rw [bfsScan] at h
      by_cases hyv : y ∈ vis
      · rw [if_pos hyv] at h
        obtain ⟨fresh, h1, h2, h3, h4, h5, h6⟩ := ih vis acc log accq vis' log' entries h hacc
        refine ⟨fresh, h1, h2, h3, h4, ?_, ?_⟩
        · intro z hz
          obtain ⟨hz1, hz2, hz3⟩ := h5 z hz
          exact ⟨List.mem_cons.mpr (Or.inr hz1), hz2, hz3⟩
        · intro z hz
          rcases List.mem_cons.mp hz with rfl | hz2
          · rw [h3]
            exact List.mem_append.mpr (Or.inr hyv)
          · exact h6 z hz2
      · rw [if_neg hyv] at h
        by_cases hyt : (y == trgId) = true
        · rw [if_pos hyt] at h
          cases h
        · rw [if_neg hyt] at h
          have hyt' : y ≠ trgId := by
            intro hc
            rw [hc] at hyt
            exact hyt (by simp)
          obtain ⟨fresh, h1, h2, h3, h4, h5, h6⟩ :=
            ih (y :: vis) (acc ++ [y]) (log ++ [y])
              (accq ++ [(y, path ++ [y])]) vis' log' entries h
              (by rw [hacc, List.map_append]; rfl)
          refine ⟨y :: fresh, ?_, ?_, ?_, ?_, ?_, ?_⟩
          · rw [h1]; simp
          · rw [h2]; simp
          · rw [h3, List.reverse_cons, List.append_assoc]
            rfl
          · rw [List.nodup_cons]
            refine ⟨?_, h4⟩
            intro hc
            exact (h5 y hc).2.1 (List.mem_cons.mpr (Or.inl rfl))
          · intro z hz
            rcases List.mem_cons.mp hz with rfl | hz2
            · exact ⟨List.mem_cons.mpr (Or.inl rfl), hyv, hyt'⟩
            · obtain ⟨hz1, hz2', hz3⟩ := h5 z hz2
              refine ⟨List.mem_cons.mpr (Or.inr hz1), ?_, hz3⟩
              intro hc
              exact hz2' (List.mem_cons.mpr (Or.inr hc))
          · intro z hz
            rcases List.mem_cons.mp hz with rfl | hz2
            · rw [h3]
              refine List.mem_append.mpr (Or.inr (List.mem_cons.mpr (Or.inl rfl)))
            · exact h6 z hz2

/-- What a neighbor scan that met the target did: the target was a fresh
neighbor, the returned path extends the current one by it, and the log
gained the fresh discoveries followed by the target. -/
theorem bfsScan_found_spec {trgId : String} {path : List String} :
    ∀ (ns vis log : List String) (accq : List (String × List String))
      (idpath vis' log' : List String),
      bfsScan trgId path ns vis accq log = BfsScan.found idpath vis' log' →
      ∃ fresh : List String,
        idpath = path ++ [trgId] ∧
        log' = (log ++ fresh) ++ [trgId] ∧
        trgId ∈ ns ∧ trgId ∉ vis ∧ trgId ∉ fresh ∧
        fresh.Nodup ∧
        (∀ y ∈ fresh, y ∈ ns ∧ y ∉ vis ∧ y ≠ trgId) := by
  intro ns
  induction ns with
  | nil =>
      intro vis log accq idpath vis' log' h
      rw [bfsScan] at h
      cases h
  | cons y ys ih =>
      intro vis log accq idpath vis' log' h
      rw [bfsScan] at h
      by_cases hyv : y ∈ vis
      · rw [if_pos hyv] at h
        obtain ⟨fresh, h1, h2, h3, h4, h5, h6, h7⟩ := ih vis log accq idpath vis' log' h
        refine ⟨fresh, h1, h2, List.mem_cons.mpr (Or.inr h3), h4, h5, h6, ?_⟩
        intro z hz
        obtain ⟨hz1, hz2, hz3⟩ := h7 z hz
        exact ⟨List.mem_cons.mpr (Or.inr hz1), hz2, hz3⟩
      · rw [if_neg hyv] at h
        by_cases hyt : (y == trgId) = true
        · rw [if_pos hyt] at h
          cases h
          have hy : y = trgId := by simpa using hyt
          refine ⟨[], by rw [hy], by simp [hy], List.mem_cons.mpr (Or.inl hy.symm),
            by rw [← hy]; exact hyv, by simp, by simp, by simp⟩
        · rw [if_neg hyt] at h
          have hyt' : y ≠ trgId := by
            intro hc
            rw [hc] at hyt
            exact hyt (by simp)
          obtain ⟨fresh, h1, h2, h3, h4, h5, h6, h7⟩ :=
            ih (y :: vis) (log ++ [y]) (accq ++ [(y, path ++ [y])]) idpath vis' log' h
          refine ⟨y :: fresh, h1, ?_, List.mem_cons.mpr (Or.inr h3), ?_, ?_, ?_, ?_⟩
          · rw [h2]; simp
          · intro hc
            exact h4 (List.mem_cons.mpr (Or.inr hc))
          · intro hc
            rcases List.mem_cons.mp hc with heq | hm
            · exact hyt' heq.symm
            · exact h5 hm
          · rw [List.nodup_cons]
            refine ⟨?_, h6⟩
            intro hc
            exact (h7 y hc).2.1 (List.mem_cons.mpr (Or.inl rfl))
          · intro z hz
            rcases List.mem_cons.mp hz with rfl | hz2
            · exact ⟨List.mem_cons.mpr (Or.inl rfl), hyv, hyt'⟩
            · obtain ⟨hz1, hz2', hz3⟩ := h7 z hz2
              refine ⟨List.mem_cons.mpr (Or.inr hz1), ?_, hz3⟩
              intro hc
              exact hz2' (List.mem_cons.mpr (Or.inr hc))

end GraphPy

namespace GraphPy

/-- Reconstruction succeeds when every id resolves, and preserves ids. -/
theorem reconstructNodes_ok (lookup : String → Option Node)
    (hid : ∀ i n, lookup i = some n → n.id = i) :
    ∀ l, (∀ i ∈ l, (lookup i).isSome) →
      ∃ ns, reconstructNodes lookup l = Except.ok ns ∧ ns.map Node.id = l := by
  intro l
  induction l with
  | nil => intro _; exact ⟨[], rfl, rfl⟩
  | cons i is ih =>
      intro h
      obtain ⟨n, hn⟩ := Option.isSome_iff_exists.mp (h i (List.mem_cons.mpr (Or.inl rfl)))
      obtain ⟨ns, hns, hids⟩ := ih (fun j hj => h j (List.mem_cons.mpr (Or.inr hj)))
      refine ⟨n :: ns, ?_, ?_⟩
      · rw [reconstructNodes, hn, hns]
      · rw [List.map_cons, hids, hid i n hn]

/-- The only error reconstruction produces is `KeyError`. -/
theorem reconstructNodes_err (lookup : String → Option Node) :
    ∀ l e, reconstructNodes lookup l = Except.error e → e = Err.keyError := by
  intro l
  induction l with
  | nil => intro e h; cases h
  | cons i is ih =>
      intro e h
      rw [reconstructNodes] at h
      cases hn : lookup i with
      | none => rw [hn] at h; cases h; rfl
      | some n =>
          rw [hn] at h
          cases hrec : reconstructNodes lookup is with
          | ok ns => rw [hrec] at h; cases h
          | error e' => rw [hrec] at h; cases h; exact ih _ hrec

/-- The invariant of the BFS loop state.  Queue entries carry shortest
paths from the source; queue levels are nondecreasing and span at most two
consecutive values; every visited node that is no longer queued has all its
neighbors visited; the source is visited, the target is not; and the
visited set is exactly the source plus the duplicate-free discovery log. -/
structure BfsInv (adjf : String → List String) (s t : String)
    (q : List (String × List String)) (vis log : List String) : Prop where
  pathOk : ∀ e ∈ q, PathTo adjf s e.1 e.2
  shortest : ∀ e ∈ q, ∀ p, IdPath adjf s e.1 p → e.2.length ≤ p.length
  sorted : List.Pairwise (· ≤ ·) (q.map (fun e => e.2.length))
  window : ∀ e1 ∈ q, ∀ e2 ∈ q, e1.2.length ≤ e2.2.length + 1
  processed : ∀ v ∈ vis, (∀ e ∈ q, e.1 ≠ v) → ∀ y ∈ adjf v, y ∈ vis
  srcVis : s ∈ vis
  trgNotVis : t ∉ vis
  visEq : ∀ x, x ∈ vis ↔ x = s ∨ x ∈ log
  logNodup : log.Nodup
  srcNotLog : s ∉ log

/-- The BFS loop, run on an invariant state, either runs out of fuel, or
returns `None` with a duplicate-free log exactly when the target is
unreachable, or returns a node path whose ids form a shortest adjacency
path from source to target, again with a duplicate-free log. -/
theorem bfsAux_spec (adjf : String → List String) (lookup : String → Option Node)
    (s t : String)
    (hlookup : ∀ x, adjf x ≠ [] → (lookup x).isSome)
    (hlookt : (lookup t).isSome)
    (hlookid : ∀ i n, lookup i = some n → n.id = i) :
    ∀ (fuel : Nat) (q : List (String × List String)) (vis log : List String),
      BfsInv adjf s t q vis log →
      (bfsAux adjf lookup t fuel q vis log = Except.error Err.outOfFuel) ∨
      (∃ log', bfsAux adjf lookup t fuel q vis log = Except.ok (none, log') ∧
        log'.Nodup ∧ ¬ Reachable adjf s t) ∨
      (∃ ns log', bfsAux adjf lookup t fuel q vis log = Except.ok (some ns, log') ∧
        log'.Nodup ∧ IdPath adjf s t (ns.map Node.id) ∧
        (∀ p, IdPath adjf s t p → (ns.map Node.id).length ≤ p.length)) := by
  intro fuel
  induction fuel with
  | zero => intro q vis log _; exact Or.inl rfl
  | succ fuel ih =>
      intro q vis log inv
      rcases q with _ | ⟨⟨cur, path⟩, rest⟩
      · refine Or.inr (Or.inl ⟨log, rfl, inv.logNodup, ?_⟩)
        rintro ⟨p, hp⟩
        have hpt := idPath_pathTo p s t hp
        obtain ⟨e, he, _⟩ := bfs_frontier
          (fun e he => absurd he (List.not_mem_nil _))
          inv.processed inv.srcVis hpt inv.trgNotVis
        exact absurd he (List.not_mem_nil _)
      · have hheadmem : ((cur, path) : String × List String) ∈ (cur, path) :: rest :=
          List.mem_cons.mpr (Or.inl rfl)
        have hheadpath : PathTo adjf s cur path := inv.pathOk (cur, path) hheadmem
        have hheadmin : ∀ e ∈ rest, path.length ≤ e.2.length := by
          have h := inv.sorted
          rw [List.map_cons, List.pairwise_cons] at h
          intro e he
          exact h.1 e.2.length (List.mem_map.mpr ⟨e, he, rfl⟩)
        have hqmin : ∀ e ∈ (cur, path) :: rest, path.length ≤ e.2.length := by
          intro e he
          rcases List.mem_cons.mp he with heq | hm
          · rw [heq]
          · exact hheadmin e hm
        cases hscan : bfsScan t path (adjf cur) vis [] log with
        | found idpath vis2 log2 =>
            obtain ⟨fresh, hip, hlog2, htadj, htvis, htfresh, hfnd, hfprops⟩ :=
              bfsScan_found_spec (adjf cur) vis log [] idpath vis2 log2 hscan
            have hlookall : ∀ i ∈ idpath, (lookup i).isSome := by
              intro i hi
              rw [hip] at hi
              rcases List.mem_append.mp hi with hi1 | hi2
              · exact hlookup i (pathTo_elem_adj hheadpath t htadj i hi1)
              · rcases List.mem_singleton.mp hi2 with rfl
                exact hlookt
            obtain ⟨ns, hns, hids⟩ := reconstructNodes_ok lookup hlookid idpath hlookall
            have hunf : bfsAux adjf lookup t (fuel + 1) ((cur, path) :: rest) vis log =
                Except.ok (some ns, log2) := by
              rw [bfsAux, hscan]
              show (match reconstructNodes lookup idpath with
                    | Except.ok ns => Except.ok (some ns, log2)
                    | Except.error e => Except.error e) = Except.ok (some ns, log2)
              rw [hns]
            have hlogfresh : ∀ y ∈ fresh, y ∉ log := by
              intro y hy hc
              exact (hfprops y hy).2.1 ((inv.visEq y).mpr (Or.inr hc))
            have htlog : t ∉ log := fun hc => htvis ((inv.visEq t).mpr (Or.inr hc))
            have hnodup2 : log2.Nodup := by
              rw [hlog2, List.nodup_append, List.nodup_append]
              refine ⟨⟨inv.logNodup, hfnd, ?_⟩, List.nodup_singleton t, ?_⟩
              · rw [List.disjoint_right]
                intro y hy
                exact hlogfresh y hy
              · rw [List.disjoint_left]
                intro a ha hc
                rcases List.mem_singleton.mp hc with rfl
                rcases List.mem_append.mp ha with h1 | h2
                · exact htlog h1
                · exact htfresh h2
            have hpathfull : PathTo adjf s t (path ++ [t]) := hheadpath.step htadj
            have hshortfull : ∀ p, IdPath adjf s t p → (path ++ [t]).length ≤ p.length := by
              intro p hp
              obtain ⟨e, he, hlen⟩ := bfs_frontier inv.shortest inv.processed inv.srcVis
                (idPath_pathTo p s t hp) inv.trgNotVis
              have := hqmin e he
              rw [List.length_append]
              simp only [List.length_singleton]
              omega
            refine Or.inr (Or.inr ⟨ns, log2, hunf, hnodup2, ?_, ?_⟩)
            · rw [hids, hip]
              exact pathTo_idPath hpathfull
            · intro p hp
              rw [hids, hip]
              exact hshortfull p hp
        | cont vis2 entries log2 =>
            obtain ⟨fresh, hent, hlog2, hvis2, hfnd, hfprops, hscanall⟩ :=
              bfsScan_cont_spec (adjf cur) vis [] log [] vis2 log2 entries hscan rfl
            rw [List.nil_append] at hent
            have hunf : bfsAux adjf lookup t (fuel + 1) ((cur, path) :: rest) vis log =
                bfsAux adjf lookup t fuel (rest ++ entries) vis2 log2 := by
              rw [bfsAux, hscan]
            have hvis_sub : ∀ x ∈ vis, x ∈ vis2 := by
              intro x hx
              rw [hvis2]
              exact List.mem_append.mpr (Or.inr hx)
            have hfresh_vis2 : ∀ y ∈ fresh, y ∈ vis2 := by
              intro y hy
              rw [hvis2]
              exact List.mem_append.mpr (Or.inl (List.mem_reverse.mpr hy))
            have hentry_form : ∀ e ∈ entries, ∃ y, y ∈ fresh ∧ e = (y, path ++ [y]) := by
              intro e he
              rw [hent] at he
              obtain ⟨y, hy, heq⟩ := List.mem_map.mp he
              exact ⟨y, hy, heq.symm⟩
            have hentry_len : ∀ e ∈ entries, e.2.length = path.length + 1 := by
              intro e he
              obtain ⟨y, _, heq⟩ := hentry_form e he
              rw [heq]
              simp
            have hfresh_short : ∀ y ∈ fresh, ∀ p, IdPath adjf s y p →
                path.length + 1 ≤ p.length := by
              intro y hy p hp
              obtain ⟨e, he, hlen⟩ := bfs_frontier inv.shortest inv.processed inv.srcVis
                (idPath_pathTo p s y hp) (hfprops y hy).2.1
              have := hqmin e he
              omega
            refine (hunf ▸ ih (rest ++ entries) vis2 log2 ?_)
            refine
              { pathOk := ?_, shortest := ?_, sorted := ?_, window := ?_,
                processed := ?_, srcVis := hvis_sub s inv.srcVis, trgNotVis := ?_,
                visEq := ?_, logNodup := ?_, srcNotLog := ?_ }
            · intro e he
              rcases List.mem_append.mp he with h1 | h2
              · exact inv.pathOk e (List.mem_cons.mpr (Or.inr h1))
              · obtain ⟨y, hy, heq⟩ := hentry_form e h2
                rw [heq]
                exact hheadpath.step (hfprops y hy).1
            · intro e he p hp
              rcases List.mem_append.mp he with h1 | h2
              · exact inv.shortest e (List.mem_cons.mpr (Or.inr h1)) p hp
              · obtain ⟨y, hy, heq⟩ := hentry_form e h2
                rw [hentry_len e h2]
                refine hfresh_short y hy p ?_
                rw [heq] at hp
                exact hp
            · rw [List.map_append, List.pairwise_append]
              refine ⟨?_, ?_, ?_⟩
              · have h := inv.sorted
                rw [List.map_cons, List.pairwise_cons] at h
                exact h.2
              · refine List.pairwise_of_forall_mem_list ?_
                intro a ha b hb
                obtain ⟨ea, hea, heqa⟩ := List.mem_map.mp ha
                obtain ⟨eb, heb, heqb⟩ := List.mem_map.mp hb
                rw [← heqa, ← heqb, hentry_len ea hea, hentry_len eb heb]
              · intro a ha b hb
                obtain ⟨ea, hea, heqa⟩ := List.mem_map.mp ha
                obtain ⟨eb, heb, heqb⟩ := List.mem_map.mp hb
                rw [← heqa, ← heqb, hentry_len eb heb]
                exact inv.window ea (List.mem_cons.mpr (Or.inr hea)) (cur, path) hheadmem
            · intro e1 he1 e2 he2
              rcases List.mem_append.mp he1 with h1 | h1 <;>
                rcases List.mem_append.mp he2 with h2 | h2
              · exact inv.window e1 (List.mem_cons.mpr (Or.inr h1))
                  e2 (List.mem_cons.mpr (Or.inr h2))
              · rw [hentry_len e2 h2]
                have hw : e1.2.length ≤ path.length + 1 :=
                  inv.window e1 (List.mem_cons.mpr (Or.inr h1)) (cur, path) hheadmem
                omega
              · rw [hentry_len e1 h1]
                have := hheadmin e2 h2
                omega
              · rw [hentry_len e1 h1, hentry_len e2 h2]
                omega
            · intro v hv hnone y hy
              rw [hvis2] at hv
              rcases List.mem_append.mp hv with h1 | h1
              · have hvf : v ∈ fresh := List.mem_reverse.mp h1
                exact absurd rfl (hnone (v, path ++ [v])
                  (List.mem_append.mpr (Or.inr (by
                    rw [hent]
                    exact List.mem_map.mpr ⟨v, hvf, rfl⟩))))
              · by_cases hvc : v = cur
                · rw [hvc] at hy
                  exact hscanall y hy
                · refine hvis_sub y (inv.processed v h1 ?_ y hy)
                  intro e he
                  rcases List.mem_cons.mp he with heq | hm
                  · rw [heq]
                    exact fun hc => hvc hc.symm
                  · exact hnone e (List.mem_append.mpr (Or.inl hm))
            · intro hc
              rw [hvis2] at hc
              rcases List.mem_append.mp hc with h1 | h1
              · exact (hfprops t (List.mem_reverse.mp h1)).2.2 rfl
              · exact inv.trgNotVis h1
            · intro x
              rw [hvis2, hlog2]
              constructor
              · intro hx
                rcases List.mem_append.mp hx with h1 | h1
                · exact Or.inr (List.mem_append.mpr (Or.inr (List.mem_reverse.mp h1)))
                · rcases (inv.visEq x).mp h1 with h2 | h2
                  · exact Or.inl h2
                  · exact Or.inr (List.mem_append.mpr (Or.inl h2))
              · intro hx
                rcases hx with h1 | h1
                · exact List.mem_append.mpr (Or.inr ((inv.visEq x).mpr (Or.inl h1)))
                · rcases List.mem_append.mp h1 with h2 | h2
                  · exact List.mem_append.mpr (Or.inr ((inv.visEq x).mpr (Or.inr h2)))
                  · exact List.mem_append.mpr (Or.inl (List.mem_reverse.mpr h2))
            · rw [hlog2, List.nodup_append]
              refine ⟨inv.logNodup, hfnd, ?_⟩
              rw [List.disjoint_right]
              intro y hy hc
              exact (hfprops y hy).2.1 ((inv.visEq y).mpr (Or.inr hc))
            · rw [hlog2]
              intro hc
              rcases List.mem_append.mp hc with h1 | h1
              · exact inv.srcNotLog h1
              · exact (hfprops s h1).2.1 inv.srcVis

end GraphPy

namespace GraphPy

/-- Marking one fresh universe element visited shrinks the unvisited count
by exactly one. -/
theorem filter_fresh (vis : List String) (y : String) :
    ∀ U : List String, U.Nodup → y ∈ U → y ∉ vis →
      (U.filter (fun u => decide (u ∉ (y :: vis)))).length + 1 =
        (U.filter (fun u => decide (u ∉ vis))).length := by
  intro U
  induction U with
  | nil => intro _ hy _; exact absurd hy (List.not_mem_nil _)
  | cons u us ih =>
      intro hnd hyU hyv
      rw [List.nodup_cons] at hnd
      rw [List.filter_cons, List.filter_cons]
      by_cases huy : u = y
      · subst huy
        have h1 : (decide (u ∉ u :: vis)) = false := by simp
        have h2 : (decide (u ∉ vis)) = true := by simpa using hyv
        have hcong : us.filter (fun x => decide (x ∉ u :: vis)) =
            us.filter (fun x => decide (x ∉ vis)) := by
          refine List.filter_congr ?_
          intro x hx
          have hxu : x ≠ u := fun hc => hnd.1 (hc ▸ hx)
          simp [List.mem_cons, hxu]
        rw [h1, h2, if_neg (by simp), if_pos rfl, hcong]
        simp [List.length_cons]
      · have hyus : y ∈ us := by
          rcases List.mem_cons.mp hyU with heq | hm
          · exact absurd heq.symm huy
          · exact hm
        have heq : (decide (u ∉ y :: vis)) = (decide (u ∉ vis)) := by
          simp [List.mem_cons, huy]
        rw [heq]
        by_cases hu : (decide (u ∉ vis)) = true
        · rw [if_pos hu, if_pos hu]
          simp only [List.length_cons]
          have := ih hnd.2 hyus hyv
          omega
        · rw [if_neg hu, if_neg hu]
          exact ih hnd.2 hyus hyv

/-- Marking a duplicate-free batch of fresh universe elements visited
shrinks the unvisited count by at least the batch size. -/
theorem filter_fresh_list :
    ∀ (fresh vis U : List String), U.Nodup → fresh.Nodup →
      (∀ y ∈ fresh, y ∈ U ∧ y ∉ vis) →
      (U.filter (fun u => decide (u ∉ (fresh.reverse ++ vis)))).length + fresh.length ≤
        (U.filter (fun u => decide (u ∉ vis))).length := by
  intro fresh
  induction fresh with
  | nil => intro vis U _ _ _; simp
  | cons y f ih =>
      intro vis U hU hfnd hprops
      rw [List.nodup_cons] at hfnd
      have hyU := (hprops y (List.mem_cons.mpr (Or.inl rfl))).1
      have hyv := (hprops y (List.mem_cons.mpr (Or.inl rfl))).2
      have hstep := filter_fresh vis y U hU hyU hyv
      have hrec := ih (y :: vis) U hU hfnd.2 (by
        intro z hz
        refine ⟨(hprops z (List.mem_cons.mpr (Or.inr hz))).1, ?_⟩
        intro hc
        rcases List.mem_cons.mp hc with heq | hm
        · exact hfnd.1 (heq ▸ hz)
        · exact (hprops z (List.mem_cons.mpr (Or.inr hz))).2 hm)
      simp only [List.reverse_cons, List.append_assoc, List.singleton_append]
      simp only [List.length_cons]
      omega

/-- With fuel exceeding the queue size plus the unvisited universe, the
BFS loop never exhausts its fuel: every iteration dequeues one entry and
enqueues only fresh universe elements. -/
theorem bfsAux_no_fuel_out (adjf : String → List String) (lookup : String → Option Node)
    (t : String) (U : List String) (hU : U.Nodup)
    (hadjU : ∀ x y, y ∈ adjf x → y ∈ U) :
    ∀ (fuel : Nat) (q : List (String × List String)) (vis log : List String),
      q.length + (U.filter (fun u => decide (u ∉ vis))).length < fuel →
      bfsAux adjf lookup t fuel q vis log ≠ Except.error Err.outOfFuel := by
  intro fuel
  induction fuel with
  | zero => intro q vis log h; exact absurd h (Nat.not_lt_zero _)
  | succ fuel ih =>
      intro q vis log hm
      rcases q with _ | ⟨⟨cur, path⟩, rest⟩
      · simp [bfsAux]
      · cases hscan : bfsScan t path (adjf cur) vis [] log with
        | found idpath vis2 log2 =>
            rw [bfsAux, hscan]
            show (match reconstructNodes lookup idpath with
                  | Except.ok ns => Except.ok (some ns, log2)
                  | Except.error e => Except.error e) ≠ Except.error Err.outOfFuel
            cases hrec : reconstructNodes lookup idpath with
            | ok ns =>
                intro hc
                exact Except.noConfusion hc
            | error e =>
                intro hc
                have he := Except.error.inj hc
                rw [reconstructNodes_err lookup idpath e hrec] at he
                exact Err.noConfusion he
        | cont vis2 entries log2 =>
            rw [bfsAux, hscan]
            obtain ⟨fresh, hent, hlog2, hvis2, hfnd, hfprops, _⟩ :=
              bfsScan_cont_spec (adjf cur) vis [] log [] vis2 log2 entries hscan rfl
            rw [List.nil_append] at hent
            show bfsAux adjf lookup t fuel (rest ++ entries) vis2 log2 ≠
              Except.error Err.outOfFuel
            refine ih (rest ++ entries) vis2 log2 ?_
            have hflen : entries.length = fresh.length := by
              rw [hent, List.length_map]
            have hbatch := filter_fresh_list fresh vis U hU hfnd (by
              intro y hy
              exact ⟨hadjU cur y (hfprops y hy).1, (hfprops y hy).2.1⟩)
            rw [List.length_append, hflen, hvis2]
            simp only [List.length_cons] at hm
            omega

end GraphPy

namespace GraphPy

/-- A nonempty adjacency `get` means the id is a key. -/
theorem adjGet_ne_nil (adj : List (String × List String)) (x : String)
    (h : adjGet adj x ≠ []) : x ∈ adj.map Prod.fst := by
  rw [adjGet] at h
  cases hf : adj.find? (fun kv => kv.1 == x) with
  | none => rw [hf] at h; exact absurd rfl h
  | some kv =>
      have hm := List.mem_of_find?_eq_some hf
      have hp : kv.1 = x := by simpa using List.find?_some hf
      rw [← hp]
      exact List.mem_map.mpr ⟨kv, hm, rfl⟩

/-- A stored node id resolves through the per-call lookup. -/
theorem idToNode_isSome (g : Graph) (i : String)
    (h : i ∈ g.nodes.map Node.id) : (idToNode g i).isSome := by
  rw [idToNode, List.find?_isSome]
  obtain ⟨n, hn, hid⟩ := List.mem_map.mp h
  exact ⟨n, List.mem_reverse.mpr hn, by simp [hid]⟩

/-- The per-call lookup returns a node carrying the requested id. -/
theorem idToNode_id (g : Graph) (i : String) (n : Node)
    (h : idToNode g i = some n) : n.id = i := by
  have := List.find?_some h
  simpa using this

/-- C4 as amended: on every graph whose adjacency view is defined, for
member source and target nodes, `bfs` succeeds; its discovery log (the ids
marked visited, each exactly when enqueued) is duplicate-free, so no node
is enqueued twice; it returns `None` exactly when the target is
unreachable over the adjacency view; and any returned node path projects
to an id path from source to target of minimum length. -/
theorem c4_bfs_shortest_path_spec (g : Graph) (src trg : Node)
    (adj : List (String × List String))
    (hmem : memberCheck g src trg = true)
    (hadj : adjacency g = Except.ok adj)
    (htrg : trg.id ∈ g.nodes.map Node.id) :
    ∃ r, bfs g src trg = Except.ok r ∧
      (bfsLog g src trg).Nodup ∧
      (r = none ↔ ¬ Reachable (adjGet adj) src.id trg.id) ∧
      (∀ ns, r = some ns → IdPath (adjGet adj) src.id trg.id (ns.map Node.id) ∧
        ∀ p, IdPath (adjGet adj) src.id trg.id p →
          (ns.map Node.id).length ≤ p.length) := by
  by_cases hne : src.id = trg.id
  · have hrun : bfsRun g src trg = Except.ok (some [src], []) := by
      rw [bfsRun, if_neg (by rw [hmem]; simp), if_pos (by simp [hne])]
    have hpath1 : IdPath (adjGet adj) src.id trg.id [src.id] :=
      ⟨List.cons_ne_nil _ _, rfl, by rw [hne]; rfl, List.chain'_singleton _⟩
    refine ⟨some [src], ?_, ?_, ?_, ?_⟩
    · rw [bfs, hrun]
    · rw [bfsLog, hrun]
      exact List.nodup_nil
    · constructor
      · intro hc; exact Option.noConfusion hc
      · intro hc; exact absurd ⟨[src.id], hpath1⟩ hc
    · intro ns hns
      have hns' : ns = [src] := (Option.some.inj hns).symm
      subst hns'
      refine ⟨by simpa using hpath1, ?_⟩
      intro p hp
      simpa using List.length_pos.mpr hp.1
  · have hruneq : bfsRun g src trg = bfsAux (adjGet adj) (idToNode g) trg.id
        (bfsFuel adj src.id) [(src.id, [src.id])] [src.id] [] := by
      rw [bfsRun, if_neg (by rw [hmem]; simp), if_neg (by simp [hne]), hadj]
    have hkeys := adjacency_ok_keys g adj hadj
    have hlookup : ∀ x, adjGet adj x ≠ [] → (idToNode g x).isSome := by
      intro x hx
      have hxk := adjGet_ne_nil adj x hx
      rw [hkeys] at hxk
      exact idToNode_isSome g x ((uniqueIds_mem g.nodes [] x).mp hxk).1
    have hlookt := idToNode_isSome g trg.id htrg
    have inv0 : BfsInv (adjGet adj) src.id trg.id [(src.id, [src.id])] [src.id] [] := by
      refine
        { pathOk := ?_, shortest := ?_, sorted := ?_, window := ?_, processed := ?_,
          srcVis := List.mem_singleton.mpr rfl, trgNotVis := ?_, visEq := ?_,
          logNodup := List.nodup_nil, srcNotLog := List.not_mem_nil _ }
      · intro e he
        rcases List.mem_singleton.mp he with rfl
        exact PathTo.refl
      · intro e he p hp
        rcases List.mem_singleton.mp he with rfl
        simpa using List.length_pos.mpr hp.1
      · simp
      · intro e1 he1 e2 he2
        rcases List.mem_singleton.mp he1 with rfl
        rcases List.mem_singleton.mp he2 with rfl
        exact Nat.le_succ _
      · intro v hv hnone y hy
        exact absurd (List.mem_singleton.mp hv).symm
          (hnone (src.id, [src.id]) (List.mem_singleton.mpr rfl))
      · intro hc
        exact hne ((List.mem_singleton.mp hc).symm)
      · intro x; simp
    have hU : ((src.id :: (adj.map Prod.snd).flatten).dedup).Nodup := List.nodup_dedup _
    have hadjU : ∀ x y, y ∈ adjGet adj x →
        y ∈ (src.id :: (adj.map Prod.snd).flatten).dedup := by
      intro x y hy
      rw [List.mem_dedup]
      refine List.mem_cons.mpr (Or.inr ?_)
      rw [adjGet] at hy
      cases hf : adj.find? (fun kv => kv.1 == x) with
      | none => rw [hf] at hy; exact absurd hy (List.not_mem_nil _)
      | some kv =>
          rw [hf] at hy
          exact List.mem_flatten.mpr ⟨kv.2,
            List.mem_map.mpr ⟨kv, List.mem_of_find?_eq_some hf, rfl⟩, hy⟩
    have hterm := bfsAux_no_fuel_out (adjGet adj) (idToNode g) trg.id
      ((src.id :: (adj.map Prod.snd).flatten).dedup) hU hadjU
      (bfsFuel adj src.id) [(src.id, [src.id])] [src.id] [] (by
        rw [bfsFuel]
        have hle := List.length_filter_le
          (fun u => decide (u ∉ ([src.id] : List String)))
          ((src.id :: (adj.map Prod.snd).flatten).dedup)
        simp only [List.length_singleton]
        omega)
    have hspec := bfsAux_spec (adjGet adj) (idToNode g) src.id trg.id hlookup hlookt
      (idToNode_id g) (bfsFuel adj src.id) [(src.id, [src.id])] [src.id] [] inv0
    rcases hspec with hfuel | ⟨log', heq, hnd, hunreach⟩ | ⟨ns, log', heq, hnd, hidp, hmin⟩
    · exact absurd hfuel hterm
    · refine ⟨none, ?_, ?_, ⟨fun _ => hunreach, fun _ => rfl⟩, ?_⟩
      · rw [bfs, hruneq, heq]
      · rw [bfsLog, hruneq, heq]
        exact hnd
      · intro ns hns
        exact Option.noConfusion hns
    · refine ⟨some ns, ?_, ?_, ?_, ?_⟩
      · rw [bfs, hruneq, heq]
      · rw [bfsLog, hruneq, heq]
        exact hnd
      · constructor
        · intro hc; exact Option.noConfusion hc
        · intro hc; exact absurd ⟨ns.map Node.id, hidp⟩ hc
      · intro ns' hns'
        have hns'' : ns' = ns := (Option.some.inj hns').symm
        subst hns''
        exact ⟨hidp, hmin⟩

/-- The adjacency view of the C1 scenario graph, as the code computes it. -/
def adjC1 : List (String × List String) :=
  [("A", ["B", "C"]), ("B", ["A", "C"]), ("C", ["B", "A"])]

/-- Witness for the amended C4 on the concrete three-node graph. -/
theorem c4_bfs_shortest_path_spec_witness :
    memberCheck gC1 gC1nodeA gC1nodeC = true ∧
    adjacency gC1 = Except.ok adjC1 ∧
    (∃ r, bfs gC1 gC1nodeA gC1nodeC = Except.ok r ∧
      (bfsLog gC1 gC1nodeA gC1nodeC).Nodup ∧
      (r = none ↔ ¬ Reachable (adjGet adjC1) gC1nodeA.id gC1nodeC.id) ∧
      (∀ ns, r = some ns →
        IdPath (adjGet adjC1) gC1nodeA.id gC1nodeC.id (ns.map Node.id) ∧
        ∀ p, IdPath (adjGet adjC1) gC1nodeA.id gC1nodeC.id p →
          (ns.map Node.id).length ≤ p.length)) :=
  ⟨by decide, by decide,
   c4_bfs_shortest_path_spec gC1 gC1nodeA gC1nodeC adjC1 (by decide) (by decide) (by decide)⟩

end GraphPy
